import Mathlib

/-!
Verification development for the cNMF_torch repository (`src/cnmf/cnmf.py`).

The numeric core of the repository is embedded shallowly over the exact
rationals `ℚ`: the Python/torch float tensors become lists of `Fin`-indexed
rational vectors, and every arithmetic step of the source is translated
operation by operation.  The only places where the source leaves exact
rational arithmetic are square roots (`torch.norm`, Euclidean distances,
L2 normalization) and external library calls; these are handled as follows:

* the convergence test `torch.norm(h_new - h) / (torch.norm(h) + eps) < h_tol`
  of `fit_H_online` is embedded as the decidable predicate `convCheck` on the
  squared Frobenius norms; the theorem `convCheck_eq_true_iff` proves that
  `convCheck` decides exactly the real-valued square-root comparison of the
  source, so the embedding stays faithful while remaining executable;
* the pairwise Euclidean distance matrix of the consensus density step is
  treated as an arbitrary matrix that is entrywise non-negative with zero
  diagonal (the only properties of a metric the code relies on);
* library calls that are external collaborators of the repository
  (`sklearn.KMeans`, `silhouette_score`, the L2 row normalization with its
  square root, `np.linalg.lstsq`, and the random `torch.rand` initialization)
  are abstract function parameters of the consensus model.

All definitions are executable, so each theorem with hypotheses comes with a
witness evaluated on concrete inputs.
-/

namespace CNMFTorch

/-! ## Matrices as lists of `Fin`-indexed rows

`X : List (Fin f → ℚ)` is an `n × f` matrix given as its list of rows; a
fixed-size matrix such as the basis `W` is a function `Fin k → Fin f → ℚ`. -/

/-- Dot product of two `m`-vectors. -/
def dotF {m : ℕ} (a b : Fin m → ℚ) : ℚ := ∑ j, a j * b j

/-- Precomputed Gram matrix `WWT = W_t @ W_t.T` of `fit_H_online`
(`src/cnmf/cnmf.py:348`). -/
def wwt {k f : ℕ} (W : Fin k → Fin f → ℚ) : Fin k → Fin k → ℚ :=
  fun a b => dotF (W a) (W b)

/-- Numerator of the multiplicative update for one data row, computed once per
chunk (`src/cnmf/cnmf.py:358-362`): `xWT = x @ W_t.T`, and if `l1_reg_H > 0`
then `numer = (xWT - l1_reg_H).clamp(min=0)`, else `numer = xWT`. -/
def rowNumer {k f : ℕ} (W : Fin k → Fin f → ℚ) (l1 : ℚ) (x : Fin f → ℚ) :
    Fin k → ℚ :=
  if 0 < l1 then fun a => max (dotF x (W a) - l1) 0
  else fun a => dotF x (W a)

/-- Denominator of the multiplicative update for one coefficient row
(`src/cnmf/cnmf.py:366-368`): `denom = h @ WWT`, plus `l2_reg_H * h` when
`l2_reg_H > 0`.  `(h @ WWT) a = ∑ b, h b * WWT b a`. -/
def rowDenom {k : ℕ} (Q : Fin k → Fin k → ℚ) (l2 : ℚ) (h : Fin k → ℚ)
    (a : Fin k) : ℚ :=
  (∑ b, h b * Q b a) + (if 0 < l2 then l2 * h a else 0)

/-- Update ratio for one entry (`src/cnmf/cnmf.py:370-371`):
`rates = numer / denom; rates[denom < epsilon] = 0.0`.  The overwrite makes
the float quotient at sub-epsilon denominators unobservable, so the net
effect embedded here is: the ratio is `0` when `denom < epsilon` and the
exact quotient otherwise. -/
def muRate (eps nu de : ℚ) : ℚ := if de < eps then 0 else nu / de

/-- One multiplicative update of one coefficient row
(`src/cnmf/cnmf.py:370-372`): `h_new = h * rates` entrywise. -/
def muRowStep {k : ℕ} (Q : Fin k → Fin k → ℚ) (l2 eps : ℚ)
    (nu h : Fin k → ℚ) : Fin k → ℚ :=
  fun a => h a * muRate eps (nu a) (rowDenom Q l2 h a)

/-- Squared Euclidean norm of a `k`-vector. -/
def rowSqNorm {k : ℕ} (r : Fin k → ℚ) : ℚ := ∑ a, r a * r a

/-- One simultaneous multiplicative update of all rows of a chunk:
`h_new = h * rates` on the `c × k` chunk state. -/
def stepChunk {k : ℕ} (Q : Fin k → Fin k → ℚ) (l2 eps : ℚ)
    (numers hs : List (Fin k → ℚ)) : List (Fin k → ℚ) :=
  List.zipWith (fun nu h => muRowStep Q l2 eps nu h) numers hs

/-- Squared Frobenius norm of a chunk state. -/
def chunkSqNorm {k : ℕ} (hs : List (Fin k → ℚ)) : ℚ := (hs.map rowSqNorm).sum

/-- Squared Frobenius norm of the difference of two chunk states. -/
def chunkSqDiff {k : ℕ} (hs' hs : List (Fin k → ℚ)) : ℚ :=
  (List.zipWith (fun a b => rowSqNorm (fun i => a i - b i)) hs' hs).sum

/-- Decision procedure for the convergence test of `fit_H_online`
(`src/cnmf/cnmf.py:375-377`): the source computes
`rel = torch.norm(h_new - h) / (torch.norm(h) + epsilon)` and breaks when
`rel < h_tol`.  With `d2 = ‖h_new - h‖²_F` and `h2 = ‖h‖²_F` this test is
`√d2 < tol * (√h2 + eps)`; `convCheck` decides that real comparison by
repeated squaring, entirely within `ℚ`.  `convCheck_eq_true_iff` below proves
the equivalence with the square-root formulation (for `0 < eps`, the regime
of the source, whose epsilon is `1e-16`). -/
def convCheck (d2 h2 tol eps : ℚ) : Bool :=
  if tol ≤ 0 then false
  else if d2 < (tol * eps) ^ 2 then true
  else if d2 = (tol * eps) ^ 2 then decide (0 < h2)
  else if d2 + tol ^ 2 * eps ^ 2 - tol ^ 2 * h2 ≤ 0 then true
  else decide ((d2 + tol ^ 2 * eps ^ 2 - tol ^ 2 * h2) ^ 2 < 4 * tol ^ 2 * eps ^ 2 * d2)

/-- Inner multiplicative-update loop on one chunk
(`src/cnmf/cnmf.py:365-378`): `for _ in range(chunk_max_iter)`, update the
chunk state, then break when the relative Frobenius change test fires.  The
fuel argument is `chunk_max_iter`; the numerators are fixed for the whole
loop, as in the source. -/
def muInnerChunk {k : ℕ} (Q : Fin k → Fin k → ℚ) (l2 eps tol : ℚ)
    (numers : List (Fin k → ℚ)) : ℕ → List (Fin k → ℚ) → List (Fin k → ℚ)
  | 0, hs => hs
  | m + 1, hs =>
    let hs' := stepChunk Q l2 eps numers hs
    if convCheck (chunkSqDiff hs' hs) (chunkSqNorm hs) tol eps then hs'
    else muInnerChunk Q l2 eps tol numers m hs'

/-- Fuel-indexed worker for `chunksOf`; the fuel is an upper bound on the list
length, which makes the recursion structural. -/
def chunksOfGo {α : Type*} (c : ℕ) : ℕ → List α → List (List α)
  | _, [] => []
  | 0, _ :: _ => []
  | fuel + 1, x :: xs =>
    ((x :: xs).take (max c 1)) :: chunksOfGo c fuel ((x :: xs).drop (max c 1))

/-- Row chunking of `fit_H_online` (`src/cnmf/cnmf.py:351-353, 381`): the
slices `X_t[idx : idx + chunk_size]` for `idx = 0, chunk_size, 2*chunk_size,…`.
The source loops forever when `chunk_size = 0`, so the embedding treats a zero
chunk size as `1`; all claims fix `chunk_size ≥ 1`. -/
def chunksOf {α : Type*} (c : ℕ) (l : List α) : List (List α) :=
  chunksOfGo c l.length l

/-- Clamp of a provided initial coefficient row (`src/cnmf/cnmf.py:345`):
`H_t = torch.from_numpy(H_init)...clamp(min=0.0)`. -/
def clampRow {k : ℕ} (h : Fin k → ℚ) : Fin k → ℚ := fun a => max (h a) 0

/-- Embedding of `fit_H_online` (`src/cnmf/cnmf.py:260-388`): online
multiplicative updates fitting `H` for fixed basis `W`, processing the rows of
`X` (paired with the rows of the initial `H`) chunk by chunk.  `H0` stands for
the provided `H_init`, to which the source applies `clamp(min=0)`; when the
source draws `H_init = None` at random, the drawn matrix lies in `[0, 1)` and
is a fixed point of the clamp, so that case is the instance `H0 = torch.rand
output`.  Dense and sparse `X` agree after the source's `toarray()`. -/
def fit_H_online {k f : ℕ} (X : List (Fin f → ℚ)) (W : Fin k → Fin f → ℚ)
    (H0 : List (Fin k → ℚ)) (chunkSize maxIter : ℕ) (tol l1 l2 eps : ℚ) :
    List (Fin k → ℚ) :=
  let Q := wwt W
  (List.zipWith
    (fun xc hc => muInnerChunk Q l2 eps tol (xc.map (rowNumer W l1)) maxIter hc)
    (chunksOf chunkSize X) (chunksOf chunkSize (H0.map clampRow))).flatten

/-- Squared reconstruction error of one data row against coefficient row `h`:
`‖x - h·W‖²` with `(h·W) j = ∑ a, h a * W a j`. -/
def rowErrSq {k f : ℕ} (x : Fin f → ℚ) (W : Fin k → Fin f → ℚ)
    (h : Fin k → ℚ) : ℚ :=
  ∑ j, (x j - ∑ a, h a * W a j) ^ 2

/-- Squared Frobenius reconstruction error of a chunk: `‖X_chunk - h·W‖²_F`. -/
def chunkErrSq {k f : ℕ} (W : Fin k → Fin f → ℚ) (xs : List (Fin f → ℚ))
    (hs : List (Fin k → ℚ)) : ℚ :=
  ((xs.zip hs).map (fun p => rowErrSq p.1 W p.2)).sum

/-! ## Streaming OLS solver

Embedding of `efficient_ols_all_cols` (`src/cnmf/cnmf.py:56-126`).  The
normalization `(Y_batch - meanY) / stdY` uses the global per-column mean and
standard deviation of `Y`, computed over the entire dataset before the batch
loop; it is therefore a fixed per-row map, independent of the batching.  The
standard deviation involves a square root, so that map (and the identity map
for `normalize_y=False`) enters the model as the abstract parameter `normY`.
The final `np.linalg.lstsq` call is an external library routine and enters as
the abstract parameter `lstsq`, a function of the two accumulated matrices. -/

/-- Contribution of one row to `X^T X`: the outer product `r rᵀ`. -/
def outerXtX {p : ℕ} (r : Fin p → ℚ) : Fin p → Fin p → ℚ := fun i j => r i * r j

/-- One batch's `X_batch.T @ X_batch` (`src/cnmf/cnmf.py:119`). -/
def batchXtX {p : ℕ} (xb : List (Fin p → ℚ)) : Fin p → Fin p → ℚ :=
  (xb.map outerXtX).sum

/-- Contribution of one paired row to `X^T Y` after normalizing the `Y` row. -/
def outerXtY {p t : ℕ} (normY : (Fin t → ℚ) → Fin t → ℚ)
    (rc : (Fin p → ℚ) × (Fin t → ℚ)) : Fin p → Fin t → ℚ :=
  fun i j => rc.1 i * normY rc.2 j

/-- One batch's `X_batch.T @ Y_batch` (`src/cnmf/cnmf.py:120`), with the
global normalization applied to the `Y` rows of the batch. -/
def batchXtY {p t : ℕ} (normY : (Fin t → ℚ) → Fin t → ℚ)
    (b : List ((Fin p → ℚ) × (Fin t → ℚ))) : Fin p → Fin t → ℚ :=
  (b.map (outerXtY normY)).sum

/-- Accumulated `XtX` over the row batches (`src/cnmf/cnmf.py:103-119`). -/
def accumXtX {p : ℕ} (X : List (Fin p → ℚ)) (bs : ℕ) : Fin p → Fin p → ℚ :=
  ((chunksOf bs X).map batchXtX).sum

/-- Accumulated `XtY` over the row batches (`src/cnmf/cnmf.py:103-120`); the
source slices `X` and `Y` by the same row range, which is the batching of the
zipped row list. -/
def accumXtY {p t : ℕ} (normY : (Fin t → ℚ) → Fin t → ℚ)
    (X : List (Fin p → ℚ)) (Y : List (Fin t → ℚ)) (bs : ℕ) :
    Fin p → Fin t → ℚ :=
  ((chunksOf bs (X.zip Y)).map (batchXtY normY)).sum

/-- Embedding of `efficient_ols_all_cols` (`src/cnmf/cnmf.py:56-126`): check
the row counts, accumulate `XtX` and `XtY` over row batches, then hand the
normal equations to the least-squares solver. -/
def efficient_ols_all_cols {p t : ℕ}
    (lstsq : (Fin p → Fin p → ℚ) → (Fin p → Fin t → ℚ) → Fin p → Fin t → ℚ)
    (normY : (Fin t → ℚ) → Fin t → ℚ)
    (X : List (Fin p → ℚ)) (Y : List (Fin t → ℚ)) (bs : ℕ) :
    Except String (Fin p → Fin t → ℚ) :=
  if X.length = Y.length then
    Except.ok (lstsq (accumXtX X bs) (accumXtY normY X Y bs))
  else Except.error "X and Y must have the same number of rows."

/-! ## Local density

Embedding of the density computation of `cNMF.consensus`
(`src/cnmf/cnmf.py:1053-1072`).  The source takes one row of the pairwise
Euclidean distance matrix of the L2-normalized spectra, selects its
`n_neighbors + 1` smallest entries with `np.argpartition` (whose first
`kth` positions hold exactly the `kth` smallest values of the row, ties
resolved arbitrarily), sums them and divides by `n_neighbors`.  Euclidean
distances are square roots, so a distance row enters the model as an
arbitrary list of rationals that is entrywise non-negative and has a zero
entry at the row's own index — the only properties the code relies on. -/

/-- Neighborhood size `n_neighbors = int(local_neighborhood_size *
merged_spectra.shape[0] / k)` (`src/cnmf/cnmf.py:1053`); Python `int()`
truncates, which is the floor for the non-negative values arising here. -/
def nNeighbors (lns : ℚ) (numRows k : ℕ) : ℕ :=
  (⌊lns * (numRows : ℚ) / (k : ℚ)⌋).toNat

/-- Ascending sort of a list of rationals. -/
def sortedAsc (l : List ℚ) : List ℚ := List.insertionSort (· ≤ ·) l

/-- Sum of the `m` smallest entries of a list (the values selected by the
source's `argpartition` prefix). -/
def smallestSum (m : ℕ) (l : List ℚ) : ℚ := ((sortedAsc l).take m).sum

/-- LocalDensity of one row as the code computes it
(`src/cnmf/cnmf.py:1067-1070`): the sum of the `n_neighbors + 1` smallest
entries of the row's distance list (self-distance included), divided by
`n_neighbors`. -/
def localDensityRow (distRow : List ℚ) (nn : ℕ) : ℚ :=
  smallestSum (nn + 1) distRow / (nn : ℚ)

/-- LocalDensity of one row as the spec words it: the mean distance to the
row's `nn` nearest other rows, i.e. the sum of the `nn` smallest entries of
the distance list with the self-entry removed, divided by `nn`.  Second
definition of the refinement claim C9, written from the spec's words. -/
def meanDistToNearestOthers (otherDists : List ℚ) (nn : ℕ) : ℚ :=
  smallestSum nn otherDists / (nn : ℚ)

/-! ## Consensus pipeline

Model of `cNMF.consensus` (`src/cnmf/cnmf.py:997-1256`).  The stages that the
claims quantify over are concrete: the density filter, the zero-survivor
check, the per-cluster median aggregation with its row renormalization, the
usage refit through `fit_H_online`, and the prediction error.  External
collaborators enter as abstract parameters collected in `Oracles`:

* `l2normalize` — the row rescaling to unit L2 norm (`src/cnmf/cnmf.py:1056`;
  a square root);
* `cluster` — `KMeans(n_clusters=k, n_init=10, random_state=1).fit` labels
  (`src/cnmf/cnmf.py:1082-1084`; sklearn);
* `silhouette` — `silhouette_score` (`src/cnmf/cnmf.py:1097`; sklearn);
* `postStages` — stages 8-11 (reorder, TPM conversion, z-score OLS, final
  refit) and the persisted artifacts, a deterministic function of the
  aggregated spectra and refit usages together with on-disk inputs (TPM
  matrix, TPM stats, gene list) that are outside the claims under test.

The local densities enter as an input list: the source loads them from the
per-`k` cache when present (`src/cnmf/cnmf.py:1061-1062`), so an arbitrary
density vector is a genuine code path; the computed branch is the subject of
claim C9.  `hinitUsage` models the `torch.rand` initial usage matrix drawn
inside `refit_usage` (`H_init=None`). -/

/-- Pipeline stages of `cNMF.consensus`, used to record which stages a run
executes and which it skips. -/
inductive Stage where
  | normalize
  | density
  | filterOutliers
  | cluster
  | aggregate
  | refitUsage
  | statsExit
  | reorder
  | tpmConvert
  | zscore
  | finalRefit
  | persist
deriving DecidableEq, Repr

/-- Error taxonomy of the spec restricted to what `consensus` can raise in
the modeled stages: `configurationError` is the spec's ConfigurationError,
raised by the source as `RuntimeError("Zero components remain after density
filtering…")` (`src/cnmf/cnmf.py:1079-1080`). -/
inductive CnmfError where
  | configurationError
deriving DecidableEq, Repr

/-- The ConsensusStats record returned by the stats-only exit
(`src/cnmf/cnmf.py:1106-1110`). -/
structure KStats where
  k : ℕ
  densityThreshold : ℚ
  silhouette : ℚ
  predictionError : ℚ
deriving DecidableEq, Repr

/-- Abstract external collaborators of `cNMF.consensus`; see the section
comment above. -/
structure Oracles (g : ℕ) (α : Type) where
  l2normalize : (Fin g → ℚ) → Fin g → ℚ
  cluster : ℕ → List (Fin g → ℚ) → List ℕ
  silhouette : List (Fin g → ℚ) → List ℕ → ℚ
  postStages : List (List ℚ) → List (List ℚ) → α

/-- Inputs of one `cNMF.consensus` invocation for a fixed rank `k`. -/
structure ConsensusIn (g : ℕ) where
  k : ℕ
  densityThreshold : ℚ
  mergedSpectra : List (Fin g → ℚ)
  localDensities : List ℚ
  normCounts : List (Fin g → ℚ)
  hinitUsage : List (List ℚ)
  chunkSize : ℕ
  maxIter : ℕ
  l1RegH : ℚ

/-- Median of a list of rationals, as `pandas.median`: the middle element of
the sorted list for odd length, the mean of the two middle elements for even
length.  (Nonempty in every use: cluster groups are nonempty.) -/
def medianQ (l : List ℚ) : ℚ :=
  let s := sortedAsc l
  if s.length % 2 = 1 then s.getD (s.length / 2) 0
  else (s.getD (s.length / 2 - 1) 0 + s.getD (s.length / 2) 0) / 2

/-- Distinct cluster labels in ascending order, the group keys of the
source's `groupby` (`src/cnmf/cnmf.py:1087`; pandas sorts group keys). -/
def sortedLabels (labels : List ℕ) : List ℕ :=
  List.insertionSort (· ≤ ·) labels.dedup

/-- Rows assigned to cluster `cl` by the label list. -/
def clusterMembers {g : ℕ} (rows : List (Fin g → ℚ)) (labels : List ℕ)
    (cl : ℕ) : List (Fin g → ℚ) :=
  ((labels.zip rows).filter (fun p => p.1 == cl)).map Prod.snd

/-- Per-cluster element-wise median spectra
(`median_spectra = l2_spectra.groupby(kmeans_cluster_labels).median()`,
`src/cnmf/cnmf.py:1087`), one row per distinct label in ascending order. -/
def medianSpectraOf {g : ℕ} (rows : List (Fin g → ℚ)) (labels : List ℕ) :
    List (List ℚ) :=
  (sortedLabels labels).map (fun cl =>
    List.ofFn (fun j : Fin g => medianQ ((clusterMembers rows labels cl).map (fun r => r j))))

/-- Renormalization of the median spectra rows to sum one
(`median_spectra = (median_spectra.T / median_spectra.sum(1)).T`,
`src/cnmf/cnmf.py:1090`). -/
def renormalizeRows (rows : List (List ℚ)) : List (List ℚ) :=
  rows.map (fun r => r.map (fun v => v / r.sum))

/-- The median spectra as a fixed basis matrix for `fit_H_online`. -/
def wOfMed (g : ℕ) (med : List (List ℚ)) : Fin med.length → Fin g → ℚ :=
  fun cIdx j => (med.get cIdx).getD (j : ℕ) 0

/-- A list row read as a `Fin`-indexed vector. -/
def listToFun (k : ℕ) (r : List ℚ) : Fin k → ℚ := fun c => r.getD (c : ℕ) 0

/-- Usage refit of the consensus pipeline through `refit_usage`
(`src/cnmf/cnmf.py:963-974, 1093`): `fit_H_online` on the normalized counts
against the fixed median spectra, with `h_tol = 0.05`, `l2_reg_H = 0.0`,
`epsilon = 1e-16`, and the configured `l1_ratio_H`.  The source passes
`H_init=None`, so the `torch.rand` draw enters as `hinit`. -/
def refitUsageStage (g : ℕ) (normCounts : List (Fin g → ℚ))
    (med : List (List ℚ)) (hinit : List (List ℚ))
    (chunkSize maxIter : ℕ) (l1 : ℚ) : List (Fin med.length → ℚ) :=
  fit_H_online normCounts (wOfMed g med) (hinit.map (listToFun med.length))
    chunkSize maxIter (1 / 20) l1 0 (1 / 10 ^ 16)

/-- Prediction error of the stats-only exit (`src/cnmf/cnmf.py:1100-1104`):
the squared Frobenius norm `‖norm_counts - rf_usages · median_spectra‖²_F`,
summed cell row by cell row. -/
def predictionErrSq (g : ℕ) (normCounts : List (Fin g → ℚ))
    (med : List (List ℚ)) (usages : List (Fin med.length → ℚ)) : ℚ :=
  ((normCounts.zip usages).map (fun p => rowErrSq p.1 (wOfMed g med) p.2)).sum

/-- L2-normalized merged spectra, stage 1 of the pipeline
(`src/cnmf/cnmf.py:1056`). -/
def l2Stage {g : ℕ} {α : Type} (orc : Oracles g α) (ins : ConsensusIn g) :
    List (Fin g → ℚ) :=
  ins.mergedSpectra.map orc.l2normalize

/-- Rows surviving the density filter
(`density_filter = local_density.iloc[:, 0] < density_threshold;
l2_spectra = l2_spectra.loc[density_filter, :]`, `src/cnmf/cnmf.py:1077-1078`). -/
def densitySurvivors {g : ℕ} (densities : List ℚ) (l2 : List (Fin g → ℚ))
    (threshold : ℚ) : List (Fin g → ℚ) :=
  ((densities.zip l2).filter (fun p => decide (p.1 < threshold))).map Prod.snd

/-- Model of `cNMF.consensus` (`src/cnmf/cnmf.py:997-1256`).  `skipStats` is
the `skip_density_and_return_after_stats` flag.  Returns the result together
with the list of executed stages.  When `skipStats` is true the source skips
the whole density/filter block (`src/cnmf/cnmf.py:1058-1080`), clusters all
normalized rows, and returns the ConsensusStats record after the silhouette
and prediction-error computation, performing no persistence; otherwise it
filters, fails on zero survivors, and runs the full pipeline whose stages
8-11 and persisted artifacts are `postStages` of the aggregation and refit
outputs. -/
def consensusRun {g : ℕ} {α : Type} (orc : Oracles g α) (skipStats : Bool)
    (ins : ConsensusIn g) : Except CnmfError (KStats ⊕ α) × List Stage :=
  let l2 := l2Stage orc ins
  if skipStats then
    let labels := orc.cluster ins.k l2
    let med := renormalizeRows (medianSpectraOf l2 labels)
    let usages := refitUsageStage g ins.normCounts med ins.hinitUsage
      ins.chunkSize ins.maxIter ins.l1RegH
    (Except.ok (Sum.inl
        ⟨ins.k, ins.densityThreshold, orc.silhouette l2 labels,
          predictionErrSq g ins.normCounts med usages⟩),
      [Stage.normalize, Stage.cluster, Stage.aggregate, Stage.refitUsage,
        Stage.statsExit])
  else
    let survivors := densitySurvivors ins.localDensities l2 ins.densityThreshold
    if survivors.isEmpty then
      (Except.error CnmfError.configurationError,
        [Stage.normalize, Stage.density, Stage.filterOutliers])
    else
      let labels := orc.cluster ins.k survivors
      let med := renormalizeRows (medianSpectraOf survivors labels)
      let usages := refitUsageStage g ins.normCounts med ins.hinitUsage
        ins.chunkSize ins.maxIter ins.l1RegH
      (Except.ok (Sum.inr (orc.postStages med (usages.map (fun r => List.ofFn r)))),
        [Stage.normalize, Stage.density, Stage.filterOutliers, Stage.cluster,
          Stage.aggregate, Stage.refitUsage, Stage.reorder, Stage.tpmConvert,
          Stage.zscore, Stage.finalRefit, Stage.persist])

/-- Claim-side model for C1, written from the spec's words: in evaluation
(stats-only) mode the pipeline runs stages 1 through 6 — including the
density computation and the drop of rows whose LocalDensity is at or above
the threshold, failing on zero survivors — and then computes the silhouette
of that clustering and the prediction error, returning the ConsensusStats
record. -/
def consensusStatsClaim {g : ℕ} {α : Type} (orc : Oracles g α)
    (ins : ConsensusIn g) : Except CnmfError KStats :=
  let l2 := l2Stage orc ins
  let survivors := densitySurvivors ins.localDensities l2 ins.densityThreshold
  if survivors.isEmpty then Except.error CnmfError.configurationError
  else
    let labels := orc.cluster ins.k survivors
    let med := renormalizeRows (medianSpectraOf survivors labels)
    let usages := refitUsageStage g ins.normCounts med ins.hinitUsage
      ins.chunkSize ins.maxIter ins.l1RegH
    Except.ok
      ⟨ins.k, ins.densityThreshold, orc.silhouette survivors labels,
        predictionErrSq g ins.normCounts med usages⟩

/-- Spec-side model for C3, written from the spec's words: the consensus run
with no filtering at all — every normalized row proceeds to clustering, the
rest of the pipeline unchanged. -/
def consensusUnfiltered {g : ℕ} {α : Type} (orc : Oracles g α)
    (ins : ConsensusIn g) : Except CnmfError (KStats ⊕ α) × List Stage :=
  let l2 := l2Stage orc ins
  let survivors := l2
  if survivors.isEmpty then
    (Except.error CnmfError.configurationError,
      [Stage.normalize, Stage.density, Stage.filterOutliers])
  else
    let labels := orc.cluster ins.k survivors
    let med := renormalizeRows (medianSpectraOf survivors labels)
    let usages := refitUsageStage g ins.normCounts med ins.hinitUsage
      ins.chunkSize ins.maxIter ins.l1RegH
    (Except.ok (Sum.inr (orc.postStages med (usages.map (fun r => List.ofFn r)))),
      [Stage.normalize, Stage.density, Stage.filterOutliers, Stage.cluster,
        Stage.aggregate, Stage.refitUsage, Stage.reorder, Stage.tpmConvert,
        Stage.zscore, Stage.finalRefit, Stage.persist])

/-! ### Concrete instances used by counterexamples and witnesses -/

/-- Concrete oracle instantiation on one gene with trivial post stages: the
normalization passes rows through, clustering labels every row `0`, the
silhouette is `0`, and the post stages return nothing. -/
def c1Orc : Oracles 1 Unit :=
  ⟨fun r => r, fun _ rows => List.replicate rows.length 0, fun _ _ => 0,
    fun _ _ => ()⟩

/-- Concrete consensus input whose single cached density `5` is at or above
the density threshold `0`, so the filter would drop every row. -/
def c1In : ConsensusIn 1 :=
  ⟨1, 0, [fun _ => 1], [5], [fun _ => 1], [[1]], 1, 1, 0⟩

/-- Concrete oracle instantiation on one gene for the C2 witness. -/
def c2Orc : Oracles 1 Unit :=
  ⟨fun r => r, fun _ rows => List.replicate rows.length 0, fun _ _ => 0,
    fun _ _ => ()⟩

/-- Concrete consensus input with densities `[1, 3]` and threshold `2`. -/
def c2In : ConsensusIn 1 :=
  ⟨1, 2, [fun _ => 1, fun _ => 2], [1, 3], [fun _ => 1], [[1]], 1, 1, 0⟩

/-- Concrete oracle on two genes whose post stages return the aggregated
spectra and refit usages themselves, so downstream differences are
observable. -/
def c3Orc : Oracles 2 (List (List ℚ) × List (List ℚ)) :=
  ⟨fun r => r, fun _ rows => List.replicate rows.length 0, fun _ _ => 0,
    fun med us => (med, us)⟩

/-- Concrete consensus input with densities `[3/10, 1/2]` and threshold
`1/2`: the threshold equals the maximum observed density, and the second row
is dropped by the strict filter. -/
def c3In : ConsensusIn 2 :=
  ⟨1, 1 / 2,
    [fun j => if j = 0 then 1 else 0, fun j => if j = 0 then 0 else 1],
    [3 / 10, 1 / 2], [fun _ => 1], [[1]], 1, 1, 0⟩

/-- Concrete consensus input with densities `[3/10, 2/5]` strictly below the
threshold `1/2`, for the witness of the amended C3. -/
def c3In2 : ConsensusIn 2 :=
  ⟨1, 1 / 2,
    [fun j => if j = 0 then 1 else 0, fun j => if j = 0 then 0 else 1],
    [3 / 10, 2 / 5], [fun _ => 1], [[1]], 1, 1, 0⟩

/-- Basis matrix `[[1, 0], [1, 1]]` of the C6 counterexample. -/
def c6W : Fin 2 → Fin 2 → ℚ := fun a j => if a = 0 ∧ j = 1 then 0 else 1

/-- Data rows `[[1, 1], [5, 5]]` of the C6 counterexample. -/
def c6X : List (Fin 2 → ℚ) := [fun _ => 1, fun _ => 5]

/-- Initial coefficient rows `[[1/100, 1], [1, 1]]` of the C6
counterexample: the first row starts near a fixed point of its update, the
second row far from one. -/
def c6H : List (Fin 2 → ℚ) := [fun j => if j = 0 then 1 / 100 else 1, fun _ => 1]

/-- Decidable equality for `Except`, entrywise on the two constructors. -/
instance {ε α : Type*} [DecidableEq ε] [DecidableEq α] :
    DecidableEq (Except ε α) := fun a b =>
  match a, b with
  | Except.error e, Except.error e' => decidable_of_iff (e = e') (by simp)
  | Except.ok v, Except.ok v' => decidable_of_iff (v = v') (by simp)
  | Except.error _, Except.ok _ => isFalse (by simp)
  | Except.ok _, Except.error _ => isFalse (by simp)

/-- Chunk state after `j` simultaneous multiplicative updates: every row of
the chunk has been updated exactly `j` times against its own numerator row.
`muInnerChunk` always produces a state of this shape (the rows of a chunk
stop together, when the chunk-level test fires or the fuel runs out). -/
def applyIter {k : ℕ} (Q : Fin k → Fin k → ℚ) (l2 eps : ℚ) (j : ℕ)
    (numers hs : List (Fin k → ℚ)) : List (Fin k → ℚ) :=
  List.zipWith (fun nu h => (muRowStep Q l2 eps nu)^[j] h) numers hs

/-! ## Helper lemmas on lists and chunking -/

theorem mem_zipWith {α β γ : Type*} {f : α → β → γ} {cs : γ} :
    ∀ {as : List α} {bs : List β},
      cs ∈ List.zipWith f as bs → ∃ a ∈ as, ∃ b ∈ bs, cs = f a b
  | [], _, h => by simp at h
  | _ :: _, [], h => by simp at h
  | a :: as, b :: bs, h => by
    rw [List.zipWith_cons_cons] at h
    rcases List.mem_cons.mp h with h | h
    · exact ⟨a, List.mem_cons_self a as, b, List.mem_cons_self b bs, h⟩
    · rcases mem_zipWith h with ⟨a', ha, b', hb, rfl⟩
      exact ⟨a', List.mem_cons_of_mem a ha, b', List.mem_cons_of_mem b hb, rfl⟩

theorem mem_of_mem_chunksOfGo {α : Type*} {c : ℕ} :
    ∀ {fuel : ℕ} {l ch : List α} {x : α},
      ch ∈ chunksOfGo c fuel l → x ∈ ch → x ∈ l := by
  intro fuel
  induction fuel with
  | zero =>
    intro l ch x h hx
    cases l <;> simp [chunksOfGo] at h
  | succ n ih =>
    intro l ch x h hx
    cases l with
    | nil => simp [chunksOfGo] at h
    | cons y ys =>
      rw [chunksOfGo] at h
      rcases List.mem_cons.mp h with rfl | h
      · exact List.take_subset _ _ hx
      · exact List.drop_subset _ _ (ih h hx)

theorem mem_of_mem_chunksOf {α : Type*} {c : ℕ} {l ch : List α} {x : α}
    (h : ch ∈ chunksOf c l) (hx : x ∈ ch) : x ∈ l :=
  mem_of_mem_chunksOfGo h hx

/-! ## Non-negativity of the chunked NNLS refit (claim C4) -/

theorem dotF_nonneg {m : ℕ} {a b : Fin m → ℚ} (ha : ∀ j, 0 ≤ a j)
    (hb : ∀ j, 0 ≤ b j) : 0 ≤ dotF a b :=
  Finset.sum_nonneg fun j _ => mul_nonneg (ha j) (hb j)

theorem wwt_nonneg {k f : ℕ} {W : Fin k → Fin f → ℚ}
    (hW : ∀ a j, 0 ≤ W a j) : ∀ a b, 0 ≤ wwt W a b :=
  fun a b => dotF_nonneg (hW a) (hW b)

theorem rowNumer_nonneg {k f : ℕ} {W : Fin k → Fin f → ℚ} {l1 : ℚ}
    {x : Fin f → ℚ} (hx : ∀ j, 0 ≤ x j) (hW : ∀ a j, 0 ≤ W a j) (a : Fin k) :
    0 ≤ rowNumer W l1 x a := by
  by_cases h1 : 0 < l1
  · simp only [rowNumer, if_pos h1]
    exact le_max_right _ _
  · simp only [rowNumer, if_neg h1]
    exact dotF_nonneg hx (hW a)

theorem rowDenom_nonneg {k : ℕ} {Q : Fin k → Fin k → ℚ} {l2 : ℚ}
    {h : Fin k → ℚ} (hQ : ∀ a b, 0 ≤ Q a b) (hh : ∀ a, 0 ≤ h a) (a : Fin k) :
    0 ≤ rowDenom Q l2 h a := by
  have h1 : 0 ≤ ∑ b, h b * Q b a :=
    Finset.sum_nonneg fun b _ => mul_nonneg (hh b) (hQ b a)
  have h2 : 0 ≤ (if 0 < l2 then l2 * h a else 0) := by
    split
    · exact mul_nonneg (by linarith) (hh a)
    · exact le_refl 0
  unfold rowDenom
  linarith

theorem muRate_nonneg {eps nu de : ℚ} (hnu : 0 ≤ nu) (hde : 0 ≤ de) :
    0 ≤ muRate eps nu de := by
  unfold muRate
  split
  · exact le_refl 0
  · exact div_nonneg hnu hde

theorem muRowStep_nonneg {k : ℕ} {Q : Fin k → Fin k → ℚ} {l2 eps : ℚ}
    {nu h : Fin k → ℚ} (hQ : ∀ a b, 0 ≤ Q a b) (hnu : ∀ a, 0 ≤ nu a)
    (hh : ∀ a, 0 ≤ h a) (a : Fin k) : 0 ≤ muRowStep Q l2 eps nu h a :=
  mul_nonneg (hh a) (muRate_nonneg (hnu a) (rowDenom_nonneg hQ hh a))

theorem stepChunk_nonneg {k : ℕ} {Q : Fin k → Fin k → ℚ} {l2 eps : ℚ}
    {numers hs : List (Fin k → ℚ)} (hQ : ∀ a b, 0 ≤ Q a b)
    (hnum : ∀ nu ∈ numers, ∀ a, 0 ≤ nu a) (hhs : ∀ h ∈ hs, ∀ a, 0 ≤ h a) :
    ∀ h ∈ stepChunk Q l2 eps numers hs, ∀ a, 0 ≤ h a := by
  intro h hmem a
  rcases mem_zipWith hmem with ⟨nu, hnu, h0, hh0, rfl⟩
  exact muRowStep_nonneg hQ (hnum nu hnu) (hhs h0 hh0) a

theorem muInnerChunk_nonneg {k : ℕ} {Q : Fin k → Fin k → ℚ}
    {l2 eps tol : ℚ} {numers : List (Fin k → ℚ)} (hQ : ∀ a b, 0 ≤ Q a b)
    (hnum : ∀ nu ∈ numers, ∀ a, 0 ≤ nu a) :
    ∀ (m : ℕ) (hs : List (Fin k → ℚ)), (∀ h ∈ hs, ∀ a, 0 ≤ h a) →
      ∀ h ∈ muInnerChunk Q l2 eps tol numers m hs, ∀ a, 0 ≤ h a
  | 0, _, hhs => hhs
  | m + 1, hs, hhs => by
    rw [muInnerChunk]
    split
    · exact stepChunk_nonneg hQ hnum hhs
    · exact muInnerChunk_nonneg hQ hnum m _ (stepChunk_nonneg hQ hnum hhs)

/-- Claim C4 (confirmed): for every non-negative data matrix `X` and
non-negative fixed basis `W` of compatible shapes, and every initial `H0`
(the provided-`H_init` path is clamped at zero and the random path draws in
`[0, 1)`), the chunked NNLS refit `fit_H_online` returns a coefficient
matrix whose every entry is at least zero. -/
theorem c4_refit_H_entrywise_nonneg {k f : ℕ} (X : List (Fin f → ℚ))
    (W : Fin k → Fin f → ℚ) (H0 : List (Fin k → ℚ))
    (chunkSize maxIter : ℕ) (tol l1 l2 eps : ℚ)
    (hX : ∀ x ∈ X, ∀ j, 0 ≤ x j) (hW : ∀ a j, 0 ≤ W a j) :
    ∀ h ∈ fit_H_online X W H0 chunkSize maxIter tol l1 l2 eps,
      ∀ a, 0 ≤ h a := by
  intro h hmem a
  unfold fit_H_online at hmem
  rw [List.mem_flatten] at hmem
  rcases hmem with ⟨chOut, hchOut, hh⟩
  rcases mem_zipWith hchOut with ⟨xc, hxc, hc, hhc, rfl⟩
  refine muInnerChunk_nonneg (wwt_nonneg hW) ?_ maxIter hc ?_ h hh a
  · intro nu hnu a'
    rcases List.mem_map.mp hnu with ⟨x, hx', rfl⟩
    exact rowNumer_nonneg (hX x (mem_of_mem_chunksOf hxc hx')) hW a'
  · intro h0 hh0 a'
    have hmemc : h0 ∈ H0.map clampRow := mem_of_mem_chunksOf hhc hh0
    rcases List.mem_map.mp hmemc with ⟨h1, _, rfl⟩
    exact le_max_right _ _

/-- Witness for C4 at a concrete input: `X = [[1]]`, `W = [[1]]`, an initial
matrix with a negative entry, one chunk, one inner iteration. -/
theorem c4_refit_H_entrywise_nonneg_witness :
    (∀ x ∈ ([fun _ => (1 : ℚ)] : List (Fin 1 → ℚ)), ∀ j, 0 ≤ x j)
    ∧ (∀ (a j : Fin 1), 0 ≤ ((fun _ _ => (1 : ℚ)) : Fin 1 → Fin 1 → ℚ) a j)
    ∧ ∀ h ∈ fit_H_online ([fun _ => (1 : ℚ)] : List (Fin 1 → ℚ))
        ((fun _ _ => (1 : ℚ)) : Fin 1 → Fin 1 → ℚ)
        ([fun _ => (-2 : ℚ)] : List (Fin 1 → ℚ)) 1 1 (1 / 20) 0 0 (1 / 10),
        ∀ a, 0 ≤ h a :=
  ⟨by with_unfolding_all decide, by with_unfolding_all decide,
    c4_refit_H_entrywise_nonneg _ _ _ _ _ _ _ _ _
      (by with_unfolding_all decide) (by with_unfolding_all decide)⟩

/-! ## Sub-epsilon denominators (claim C5) -/

/-- Claim C5 (confirmed): in every multiplicative-update inner iteration,
every coefficient entry whose denominator value (`h @ WWT` plus the optional
L2 term) is below epsilon gets an update ratio of exactly zero, so the
updated entry is exactly zero.  The embedded update is a total function on
`ℚ`: the overwritten quotient is never formed, so no error, NaN or Inf can
arise from such entries. -/
theorem c5_subeps_denominator_update_is_zero {k : ℕ} (Q : Fin k → Fin k → ℚ)
    (l2 eps : ℚ) (nu h : Fin k → ℚ) (a : Fin k)
    (hde : rowDenom Q l2 h a < eps) :
    muRate eps (nu a) (rowDenom Q l2 h a) = 0 ∧ muRowStep Q l2 eps nu h a = 0 := by
  have h1 : muRate eps (nu a) (rowDenom Q l2 h a) = 0 := if_pos hde
  refine ⟨h1, ?_⟩
  show h a * muRate eps (nu a) (rowDenom Q l2 h a) = 0
  rw [h1, mul_zero]

/-- Witness for C5 at a concrete input: a zero Gram matrix makes the
denominator `0 < eps = 1`, and the updated entry is zero. -/
theorem c5_subeps_denominator_update_is_zero_witness :
    rowDenom ((fun _ _ => (0 : ℚ)) : Fin 1 → Fin 1 → ℚ) 0
        ((fun _ => (3 : ℚ)) : Fin 1 → ℚ) (0 : Fin 1) < 1
    ∧ (muRate 1 (((fun _ => (5 : ℚ)) : Fin 1 → ℚ) (0 : Fin 1))
          (rowDenom ((fun _ _ => (0 : ℚ)) : Fin 1 → Fin 1 → ℚ) 0
            ((fun _ => (3 : ℚ)) : Fin 1 → ℚ) (0 : Fin 1)) = 0
        ∧ muRowStep ((fun _ _ => (0 : ℚ)) : Fin 1 → Fin 1 → ℚ) 0 1
            ((fun _ => (5 : ℚ)) : Fin 1 → ℚ) ((fun _ => (3 : ℚ)) : Fin 1 → ℚ)
            (0 : Fin 1) = 0) :=
  ⟨by with_unfolding_all decide,
    c5_subeps_denominator_update_is_zero
      ((fun _ _ => (0 : ℚ)) : Fin 1 → Fin 1 → ℚ) 0 1
      ((fun _ => (5 : ℚ)) : Fin 1 → ℚ) ((fun _ => (3 : ℚ)) : Fin 1 → ℚ)
      (0 : Fin 1) (by with_unfolding_all decide)⟩

/-! ## Chunk evolution: the rows of one chunk stop together (claims C6, C10) -/

theorem zipWith_zipWith_same {α β γ δ : Type*} (f : α → γ → δ) (g : α → β → γ) :
    ∀ (ns : List α) (hs : List β),
      List.zipWith f ns (List.zipWith g ns hs)
        = List.zipWith (fun n h => f n (g n h)) ns hs
  | [], _ => rfl
  | _ :: _, [] => rfl
  | n :: ns, h :: hs => by
    simp only [List.zipWith_cons_cons]
    rw [zipWith_zipWith_same f g ns hs]

theorem zipWith_snd_self {α β : Type*} :
    ∀ {ns : List α} {hs : List β}, ns.length = hs.length →
      List.zipWith (fun _ h => h) ns hs = hs
  | [], [], _ => rfl
  | [], _ :: _, h => by simp at h
  | _ :: _, [], h => by simp at h
  | _ :: ns, h :: hs, hlen => by
    simp only [List.zipWith_cons_cons]
    rw [zipWith_snd_self (by simpa using hlen)]

theorem applyIter_zero {k : ℕ} (Q : Fin k → Fin k → ℚ) (l2 eps : ℚ)
    {numers hs : List (Fin k → ℚ)} (hlen : numers.length = hs.length) :
    applyIter Q l2 eps 0 numers hs = hs := by
  unfold applyIter
  simp only [Function.iterate_zero, id]
  exact zipWith_snd_self hlen

theorem stepChunk_eq_applyIter_one {k : ℕ} (Q : Fin k → Fin k → ℚ)
    (l2 eps : ℚ) (numers hs : List (Fin k → ℚ)) :
    stepChunk Q l2 eps numers hs = applyIter Q l2 eps 1 numers hs := by
  unfold stepChunk applyIter
  simp only [Function.iterate_one]

theorem applyIter_applyIter {k : ℕ} (Q : Fin k → Fin k → ℚ) (l2 eps : ℚ)
    (a b : ℕ) (numers hs : List (Fin k → ℚ)) :
    applyIter Q l2 eps a numers (applyIter Q l2 eps b numers hs)
      = applyIter Q l2 eps (a + b) numers hs := by
  unfold applyIter
  rw [zipWith_zipWith_same]
  have hfun : (fun (nu h : Fin k → ℚ) =>
        (muRowStep Q l2 eps nu)^[a] ((muRowStep Q l2 eps nu)^[b] h))
      = fun nu h => (muRowStep Q l2 eps nu)^[a + b] h := by
    funext nu h
    rw [Function.iterate_add_apply]
  rw [hfun]

theorem stepChunk_length {k : ℕ} (Q : Fin k → Fin k → ℚ) (l2 eps : ℚ)
    (numers hs : List (Fin k → ℚ)) (hlen : numers.length = hs.length) :
    (stepChunk Q l2 eps numers hs).length = hs.length := by
  simp [stepChunk, hlen]

theorem muInnerChunk_exists_applyIter {k : ℕ} (Q : Fin k → Fin k → ℚ)
    (l2 eps tol : ℚ) (numers : List (Fin k → ℚ)) :
    ∀ (m : ℕ) (hs : List (Fin k → ℚ)), numers.length = hs.length →
      ∃ j, muInnerChunk Q l2 eps tol numers m hs = applyIter Q l2 eps j numers hs
  | 0, hs, hlen => ⟨0, (applyIter_zero Q l2 eps hlen).symm⟩
  | m + 1, hs, hlen => by
    rw [muInnerChunk]
    split
    · exact ⟨1, stepChunk_eq_applyIter_one Q l2 eps numers hs⟩
    · have hlen' : numers.length = (stepChunk Q l2 eps numers hs).length := by
        rw [stepChunk_length Q l2 eps numers hs hlen]; exact hlen
      rcases muInnerChunk_exists_applyIter Q l2 eps tol numers m
        (stepChunk Q l2 eps numers hs) hlen' with ⟨j, hj⟩
      refine ⟨j + 1, ?_⟩
      rw [hj, stepChunk_eq_applyIter_one, applyIter_applyIter]

theorem convCheck_of_tol_nonpos {d2 h2 tol eps : ℚ} (h : tol ≤ 0) :
    convCheck d2 h2 tol eps = false := by
  unfold convCheck
  rw [if_pos h]

set_option maxHeartbeats 2000000 in
/-- Faithfulness of `convCheck`: for positive epsilon (the source uses
`1e-16`) and non-negative squared norms, `convCheck d2 h2 tol eps` decides
exactly the source's convergence test
`sqrt d2 / (sqrt h2 + eps) < tol`, written as
`sqrt d2 < tol * (sqrt h2 + eps)`. -/
theorem convCheck_eq_true_iff (d2 h2 tol eps : ℚ) (hd2 : 0 ≤ d2)
    (hh2 : 0 ≤ h2) (heps : 0 < eps) :
    convCheck d2 h2 tol eps = true
      ↔ Real.sqrt (d2 : ℝ) < (tol : ℝ) * (Real.sqrt (h2 : ℝ) + (eps : ℝ)) := by
  have hd2R : (0 : ℝ) ≤ (d2 : ℝ) := by exact_mod_cast hd2
  have hh2R : (0 : ℝ) ≤ (h2 : ℝ) := by exact_mod_cast hh2
  have hepsR : (0 : ℝ) < (eps : ℝ) := by exact_mod_cast heps
  set S := Real.sqrt (d2 : ℝ) with hSdef
  set T := Real.sqrt (h2 : ℝ) with hTdef
  have hS2 : S ^ 2 = (d2 : ℝ) := Real.sq_sqrt hd2R
  have hT2 : T ^ 2 = (h2 : ℝ) := Real.sq_sqrt hh2R
  have hSnn : (0 : ℝ) ≤ S := Real.sqrt_nonneg _
  have hTnn : (0 : ℝ) ≤ T := Real.sqrt_nonneg _
  unfold convCheck
  by_cases h1 : tol ≤ 0
  · rw [if_pos h1]
    simp only [Bool.false_eq_true, false_iff, not_lt]
    have htolR : (tol : ℝ) ≤ 0 := by exact_mod_cast h1
    nlinarith
  · push_neg at h1
    have htolR : (0 : ℝ) < (tol : ℝ) := by exact_mod_cast h1
    rw [if_neg (not_le.mpr h1)]
    by_cases hlt : d2 < (tol * eps) ^ 2
    · rw [if_pos hlt]
      simp only [true_iff]
      have hltR : (d2 : ℝ) < ((tol : ℝ) * eps) ^ 2 := by exact_mod_cast hlt
      have hS : S < (tol : ℝ) * eps := by
        rw [hSdef]
        exact (Real.sqrt_lt' (by positivity)).mpr hltR
      nlinarith
    · rw [if_neg hlt]
      by_cases heq : d2 = (tol * eps) ^ 2
      · rw [if_pos heq, decide_eq_true_iff]
        have heqR : (d2 : ℝ) = ((tol : ℝ) * eps) ^ 2 := by exact_mod_cast heq
        have hSeq : S = (tol : ℝ) * eps := by
          rw [hSdef, heqR]
          exact Real.sqrt_sq (by positivity)
        rw [hSeq]
        constructor
        · intro hp
          have hpR : (0 : ℝ) < (h2 : ℝ) := by exact_mod_cast hp
          have hTpos : (0 : ℝ) < T := Real.sqrt_pos.mpr hpR
          nlinarith
        · intro hlt2
          have hTpos : (0 : ℝ) < T := by nlinarith
          have hpR : (0 : ℝ) < (h2 : ℝ) := by
            rw [← hT2]
            positivity
          exact_mod_cast hpR
      · rw [if_neg heq]
        have hgtQ : (tol * eps) ^ 2 < d2 :=
          lt_of_le_of_ne (not_lt.mp hlt) (fun hx => heq hx.symm)
        have hgtR : ((tol : ℝ) * eps) ^ 2 < (d2 : ℝ) := by exact_mod_cast hgtQ
        have hSgt : (tol : ℝ) * eps < S := by
          nlinarith [hS2, hSnn, mul_pos htolR hepsR]
        have hSpos : (0 : ℝ) < S := lt_trans (mul_pos htolR hepsR) hSgt
        have hLR : (((d2 + tol ^ 2 * eps ^ 2 - tol ^ 2 * h2 : ℚ)) : ℝ)
            = (d2 : ℝ) + (tol : ℝ) ^ 2 * (eps : ℝ) ^ 2 - (tol : ℝ) ^ 2 * (h2 : ℝ) := by
          push_cast
          ring
        have he1 : (S - (tol : ℝ) * eps) ^ 2
            = (d2 : ℝ) - 2 * (tol : ℝ) * (eps : ℝ) * S
              + (tol : ℝ) ^ 2 * (eps : ℝ) ^ 2 := by
          rw [← hS2]
          ring
        have he2 : ((tol : ℝ) * T) ^ 2 = (tol : ℝ) ^ 2 * (h2 : ℝ) := by
          rw [← hT2]
          ring
        have hpow : (2 * (tol : ℝ) * (eps : ℝ) * S) ^ 2
            = 4 * (tol : ℝ) ^ 2 * (eps : ℝ) ^ 2 * (d2 : ℝ) := by
          rw [← hS2]
          ring
        have hiff : (S < (tol : ℝ) * (T + eps))
            ↔ S - (tol : ℝ) * eps < (tol : ℝ) * T := by
          constructor <;> intro hx <;> nlinarith
        by_cases hL : d2 + tol ^ 2 * eps ^ 2 - tol ^ 2 * h2 ≤ 0
        · rw [if_pos hL]
          simp only [true_iff]
          have hLRle : (d2 : ℝ) + (tol : ℝ) ^ 2 * (eps : ℝ) ^ 2
              - (tol : ℝ) ^ 2 * (h2 : ℝ) ≤ 0 := by
            rw [← hLR]
            exact_mod_cast hL
          have hkey : (S - (tol : ℝ) * eps) ^ 2 < ((tol : ℝ) * T) ^ 2 := by
            rw [he1, he2]
            nlinarith [mul_pos (mul_pos (mul_pos (by norm_num : (0:ℝ) < 2) htolR) hepsR) hSpos]
          have hST := lt_of_pow_lt_pow_left₀ 2
            (mul_nonneg (le_of_lt htolR) hTnn) hkey
          exact hiff.mpr hST
        · push_neg at hL
          rw [if_neg (not_le.mpr hL), decide_eq_true_iff]
          have hLpos : (0 : ℝ) < (d2 : ℝ) + (tol : ℝ) ^ 2 * (eps : ℝ) ^ 2
              - (tol : ℝ) ^ 2 * (h2 : ℝ) := by
            rw [← hLR]
            exact_mod_cast hL
          have h2S : (0 : ℝ) < 2 * (tol : ℝ) * (eps : ℝ) * S := by positivity
          constructor
          · intro hsq
            have hsqR : ((d2 : ℝ) + (tol : ℝ) ^ 2 * (eps : ℝ) ^ 2
                - (tol : ℝ) ^ 2 * (h2 : ℝ)) ^ 2
                < 4 * (tol : ℝ) ^ 2 * (eps : ℝ) ^ 2 * (d2 : ℝ) := by
              have hc : (((d2 + tol ^ 2 * eps ^ 2 - tol ^ 2 * h2) ^ 2 : ℚ) : ℝ)
                  < ((4 * tol ^ 2 * eps ^ 2 * d2 : ℚ) : ℝ) := by exact_mod_cast hsq
              push_cast at hc
              linarith
            have hLr2 : (d2 : ℝ) + (tol : ℝ) ^ 2 * (eps : ℝ) ^ 2
                - (tol : ℝ) ^ 2 * (h2 : ℝ)
                < 2 * (tol : ℝ) * (eps : ℝ) * S := by
              refine lt_of_pow_lt_pow_left₀ 2 (le_of_lt h2S) ?_
              rw [hpow]
              exact hsqR
            have hkey : (S - (tol : ℝ) * eps) ^ 2 < ((tol : ℝ) * T) ^ 2 := by
              rw [he1, he2]
              linarith
            have hST := lt_of_pow_lt_pow_left₀ 2
              (mul_nonneg (le_of_lt htolR) hTnn) hkey
            exact hiff.mpr hST
          · intro hlt2
            have hstep1 : S - (tol : ℝ) * eps < (tol : ℝ) * T := hiff.mp hlt2
            have hge : (0 : ℝ) ≤ S - (tol : ℝ) * eps := by linarith
            have htwo : (2 : ℕ) ≠ 0 := by norm_num
            have hsq1 : (S - (tol : ℝ) * eps) ^ 2 < ((tol : ℝ) * T) ^ 2 :=
              pow_lt_pow_left₀ hstep1 hge htwo
            have hLr : (d2 : ℝ) + (tol : ℝ) ^ 2 * (eps : ℝ) ^ 2
                - (tol : ℝ) ^ 2 * (h2 : ℝ)
                < 2 * (tol : ℝ) * (eps : ℝ) * S := by
              rw [he1, he2] at hsq1
              linarith
            have hQR : ((d2 : ℝ) + (tol : ℝ) ^ 2 * (eps : ℝ) ^ 2
                - (tol : ℝ) ^ 2 * (h2 : ℝ)) ^ 2
                < 4 * (tol : ℝ) ^ 2 * (eps : ℝ) ^ 2 * (d2 : ℝ) := by
              rw [← hpow]
              exact pow_lt_pow_left₀ hLr (le_of_lt hLpos) (by norm_num)
            have hQ2 : (((d2 + tol ^ 2 * eps ^ 2 - tol ^ 2 * h2) ^ 2 : ℚ) : ℝ)
                < ((4 * tol ^ 2 * eps ^ 2 * d2 : ℚ) : ℝ) := by
              push_cast
              push_cast at hQR
              linarith
            exact_mod_cast hQ2

theorem muInnerChunk_of_tol_nonpos {k : ℕ} (Q : Fin k → Fin k → ℚ)
    (l2 eps tol : ℚ) (htol : tol ≤ 0) (numers : List (Fin k → ℚ)) :
    ∀ (m : ℕ) (hs : List (Fin k → ℚ)), numers.length = hs.length →
      muInnerChunk Q l2 eps tol numers m hs = applyIter Q l2 eps m numers hs
  | 0, hs, hlen => (applyIter_zero Q l2 eps hlen).symm
  | m + 1, hs, hlen => by
    rw [muInnerChunk, convCheck_of_tol_nonpos htol]
    simp only [Bool.false_eq_true, if_false]
    have hlen' : numers.length = (stepChunk Q l2 eps numers hs).length := by
      rw [stepChunk_length Q l2 eps numers hs hlen]; exact hlen
    rw [muInnerChunk_of_tol_nonpos Q l2 eps tol htol numers m _ hlen',
      stepChunk_eq_applyIter_one, applyIter_applyIter]

theorem fitGo_of_tol_nonpos {k f : ℕ} (W : Fin k → Fin f → ℚ)
    (m c : ℕ) (tol l1 l2 eps : ℚ) (htol : tol ≤ 0) :
    ∀ (fuel : ℕ) (xs : List (Fin f → ℚ)) (hs : List (Fin k → ℚ)),
      xs.length = hs.length → xs.length ≤ fuel →
      (List.zipWith
          (fun xc hc => muInnerChunk (wwt W) l2 eps tol (xc.map (rowNumer W l1)) m hc)
          (chunksOfGo c fuel xs) (chunksOfGo c fuel hs)).flatten
        = List.zipWith
            (fun x h => (muRowStep (wwt W) l2 eps (rowNumer W l1 x))^[m] h) xs hs
  | 0, xs, hs, hlen, hle => by
    have hx : xs = [] := List.length_eq_zero.mp (Nat.le_zero.mp hle)
    subst hx
    have hh : hs = [] := List.length_eq_zero.mp hlen.symm
    subst hh
    rfl
  | fuel + 1, [], hs, hlen, _ => by
    have hh : hs = [] := List.length_eq_zero.mp hlen.symm
    subst hh
    rfl
  | fuel + 1, x :: xs, hs, hlen, hle => by
    cases hs with
    | nil => simp at hlen
    | cons h hs =>
      rw [chunksOfGo, chunksOfGo]
      simp only [List.zipWith_cons_cons, List.flatten_cons]
      have htklen : ((x :: xs).take (max c 1)).length
          = ((h :: hs).take (max c 1)).length := by
        simp [List.length_take, hlen]
      have hdrlen : ((x :: xs).drop (max c 1)).length
          = ((h :: hs).drop (max c 1)).length := by
        simp [List.length_drop, hlen]
      have hdrle : ((x :: xs).drop (max c 1)).length ≤ fuel := by
        have h1 : 1 ≤ max c 1 := le_max_right c 1
        have h2 : (x :: xs).length ≤ fuel + 1 := hle
        simp only [List.length_drop, List.length_cons] at h2 ⊢
        generalize max c 1 = mc at h1 ⊢
        omega
      have hchunk : muInnerChunk (wwt W) l2 eps tol
            (((x :: xs).take (max c 1)).map (rowNumer W l1)) m ((h :: hs).take (max c 1))
          = List.zipWith (fun x h => (muRowStep (wwt W) l2 eps (rowNumer W l1 x))^[m] h)
              ((x :: xs).take (max c 1)) ((h :: hs).take (max c 1)) := by
        rw [muInnerChunk_of_tol_nonpos (wwt W) l2 eps tol htol _ m _
          (by simpa using htklen)]
        unfold applyIter
        rw [List.zipWith_map_left]
      rw [hchunk,
        fitGo_of_tol_nonpos W m c tol l1 l2 eps htol fuel _ _ hdrlen hdrle,
        ← List.zipWith_append _ _ _ _ _ htklen,
        List.take_append_drop, List.take_append_drop]
      rfl

theorem fit_H_online_of_tol_nonpos {k f : ℕ} (X : List (Fin f → ℚ))
    (W : Fin k → Fin f → ℚ) (H0 : List (Fin k → ℚ)) (chunkSize maxIter : ℕ)
    (tol l1 l2 eps : ℚ) (htol : tol ≤ 0) (hlen : X.length = H0.length) :
    fit_H_online X W H0 chunkSize maxIter tol l1 l2 eps
      = List.zipWith
          (fun x h => (muRowStep (wwt W) l2 eps (rowNumer W l1 x))^[maxIter] (clampRow h))
          X H0 := by
  unfold fit_H_online chunksOf
  rw [show (H0.map clampRow).length = X.length from by simpa using hlen.symm]
  rw [fitGo_of_tol_nonpos W maxIter chunkSize tol l1 l2 eps htol X.length X
    (H0.map clampRow) (by simpa using hlen) le_rfl]
  rw [List.zipWith_map_right]

set_option maxRecDepth 100000 in
/-- Claim C6 counterexample: the chunk-level convergence test couples the
rows of a chunk, so the chunk size changes the result in exact arithmetic,
at the very tolerance `h_tol = 0.05` and epsilon `1e-16` that `refit_usage`
hardcodes.  Here `W = [[1,0],[1,1]]`, `X = [[1,1],[5,5]]`,
`H_init = [[1/100,1],[1,1]]`, two inner iterations: with `chunk_size = 1`
the first row's relative change after one update is below the tolerance and
its chunk stops at `[1/101, 200/201]`, while with `chunk_size = 2` the
distant second row keeps the joint relative change above the tolerance, the
first row is updated twice, and ends at `[201/20401, 40400/40601]`. -/
theorem c6_counterexample :
    fit_H_online c6X c6W c6H 1 2 (1 / 20) 0 0 (1 / 10 ^ 16)
      ≠ fit_H_online c6X c6W c6H 2 2 (1 / 20) 0 0 (1 / 10 ^ 16) := by
  with_unfolding_all decide

/-- Claim C6 (corrected): the chunked NNLS refit is independent of the chunk
size provided the relative-convergence early stop never fires — here stated
with `h_tol ≤ 0`, which disables the test (the relative change is a
non-negative real).  The counterexample above shows the claim fails as
stated for positive tolerances: the convergence test aggregates the whole
chunk's Frobenius norm, so chunking changes the per-row iteration counts.
With the early stop disabled, every row receives exactly `maxIter` updates
computed from its own row data, and any two chunk sizes agree. -/
theorem c6_chunk_size_invariance_amended {k f : ℕ} (X : List (Fin f → ℚ))
    (W : Fin k → Fin f → ℚ) (H0 : List (Fin k → ℚ)) (c1 c2 maxIter : ℕ)
    (tol l1 l2 eps : ℚ) (_hc1 : 0 < c1) (_hc2 : 0 < c2) (_heps : 0 < eps)
    (htol : tol ≤ 0) (hlen : X.length = H0.length) :
    fit_H_online X W H0 c1 maxIter tol l1 l2 eps
      = fit_H_online X W H0 c2 maxIter tol l1 l2 eps := by
  rw [fit_H_online_of_tol_nonpos X W H0 c1 maxIter tol l1 l2 eps htol hlen,
    fit_H_online_of_tol_nonpos X W H0 c2 maxIter tol l1 l2 eps htol hlen]

/-- Witness for the amended C6 at a concrete input: two rows, chunk sizes 1
and 2, tolerance 0. -/
theorem c6_chunk_size_invariance_amended_witness :
    fit_H_online c6X c6W c6H 1 2 0 0 0 (1 / 10 ^ 16)
      = fit_H_online c6X c6W c6H 2 2 0 0 0 (1 / 10 ^ 16) :=
  c6_chunk_size_invariance_amended c6X c6W c6H 1 2 2 0 0 0 (1 / 10 ^ 16)
    (by decide) (by decide) (by with_unfolding_all decide) le_rfl
    (by with_unfolding_all decide)

/-! ## Zero entries are absorbing (claim C10) -/

theorem muRowStep_zero_entry {k : ℕ} {Q : Fin k → Fin k → ℚ} {l2 eps : ℚ}
    {nu h : Fin k → ℚ} {a : Fin k} (hz : h a = 0) :
    muRowStep Q l2 eps nu h a = 0 := by
  show h a * _ = 0
  rw [hz, zero_mul]

theorem muRowStep_iterate_zero_entry {k : ℕ} {Q : Fin k → Fin k → ℚ}
    {l2 eps : ℚ} {nu : Fin k → ℚ} (a : Fin k) :
    ∀ (j : ℕ) (h : Fin k → ℚ), h a = 0 → (muRowStep Q l2 eps nu)^[j] h a = 0
  | 0, _, hz => hz
  | j + 1, h, hz => by
    rw [Function.iterate_succ_apply]
    exact muRowStep_iterate_zero_entry a j _ (muRowStep_zero_entry hz)

theorem forall2_zip_zipWith {α β γ : Type*} (R : α × β → γ → Prop)
    (g : α → β → γ) (hR : ∀ a b, R (a, b) (g a b)) :
    ∀ {as : List α} {bs : List β}, as.length = bs.length →
      List.Forall₂ R (as.zip bs) (List.zipWith g as bs)
  | [], [], _ => List.Forall₂.nil
  | [], _ :: _, h => by simp at h
  | _ :: _, [], h => by simp at h
  | a :: as, b :: bs, hlen => by
    rw [List.zip_cons_cons, List.zipWith_cons_cons]
    exact List.Forall₂.cons (hR a b)
      (forall2_zip_zipWith R g hR (by simpa using hlen))

theorem muInnerChunk_forall2 {k f : ℕ} (W : Fin k → Fin f → ℚ)
    (l2 eps tol l1 : ℚ) (m : ℕ) (xc : List (Fin f → ℚ))
    (hc : List (Fin k → ℚ)) (hlen : xc.length = hc.length) :
    List.Forall₂
      (fun (p : (Fin f → ℚ) × (Fin k → ℚ)) hout =>
        ∃ j, hout = (muRowStep (wwt W) l2 eps (rowNumer W l1 p.1))^[j] p.2)
      (xc.zip hc)
      (muInnerChunk (wwt W) l2 eps tol (xc.map (rowNumer W l1)) m hc) := by
  rcases muInnerChunk_exists_applyIter (wwt W) l2 eps tol
    (xc.map (rowNumer W l1)) m hc (by simpa using hlen) with ⟨j, hj⟩
  rw [hj]
  unfold applyIter
  rw [List.zipWith_map_left]
  exact forall2_zip_zipWith _ _ (fun a b => ⟨j, rfl⟩) hlen

theorem fit_forall2_go {k f : ℕ} (W : Fin k → Fin f → ℚ)
    (l2 eps tol l1 : ℚ) (m c : ℕ) :
    ∀ (fuel : ℕ) (xs : List (Fin f → ℚ)) (hs : List (Fin k → ℚ)),
      xs.length = hs.length → xs.length ≤ fuel →
      List.Forall₂
        (fun (p : (Fin f → ℚ) × (Fin k → ℚ)) hout =>
          ∃ j, hout = (muRowStep (wwt W) l2 eps (rowNumer W l1 p.1))^[j] p.2)
        (xs.zip hs)
        ((List.zipWith
            (fun xc hc => muInnerChunk (wwt W) l2 eps tol (xc.map (rowNumer W l1)) m hc)
            (chunksOfGo c fuel xs) (chunksOfGo c fuel hs)).flatten)
  | 0, xs, hs, hlen, hle => by
    have hx : xs = [] := List.length_eq_zero.mp (Nat.le_zero.mp hle)
    subst hx
    have hh : hs = [] := List.length_eq_zero.mp hlen.symm
    subst hh
    exact List.Forall₂.nil
  | fuel + 1, [], hs, hlen, _ => by
    have hh : hs = [] := List.length_eq_zero.mp hlen.symm
    subst hh
    exact List.Forall₂.nil
  | fuel + 1, x :: xs, hs, hlen, hle => by
    cases hs with
    | nil => simp at hlen
    | cons h hs =>
      rw [chunksOfGo, chunksOfGo]
      simp only [List.zipWith_cons_cons, List.flatten_cons]
      have htklen : ((x :: xs).take (max c 1)).length
          = ((h :: hs).take (max c 1)).length := by
        simp [List.length_take, hlen]
      have hdrlen : ((x :: xs).drop (max c 1)).length
          = ((h :: hs).drop (max c 1)).length := by
        simp [List.length_drop, hlen]
      have hdrle : ((x :: xs).drop (max c 1)).length ≤ fuel := by
        have h1 : 1 ≤ max c 1 := le_max_right c 1
        have h2 : (x :: xs).length ≤ fuel + 1 := hle
        simp only [List.length_drop, List.length_cons] at h2 ⊢
        generalize max c 1 = mc at h1 ⊢
        omega
      have hzip : (x :: xs).zip (h :: hs)
          = ((x :: xs).take (max c 1)).zip ((h :: hs).take (max c 1))
            ++ ((x :: xs).drop (max c 1)).zip ((h :: hs).drop (max c 1)) := by
        conv_lhs => rw [← List.take_append_drop (max c 1) (x :: xs),
          ← List.take_append_drop (max c 1) (h :: hs)]
        rw [List.zip_append htklen]
      rw [hzip]
      exact List.rel_append
        (muInnerChunk_forall2 W l2 eps tol l1 m _ _ htklen)
        (fit_forall2_go W l2 eps tol l1 m c fuel _ _ hdrlen hdrle)

/-- Claim C10 (confirmed): zero is absorbing for every coefficient entry of
the chunked NNLS refit.  First conjunct: in every chunk and every inner
iteration, an entry of `h` that is zero is zero again after the
multiplicative update (`h_new = h * rates`), whatever the update ratio — so
an entry zeroed at initialization, by the L1 clamp of the numerator, or by
the sub-epsilon denominator floor stays zero in all subsequent iterations.
Second conjunct: row by row, an entry of the clamped initial matrix that is
zero is zero in the returned `H`. -/
theorem c10_zero_is_absorbing {k f : ℕ} (X : List (Fin f → ℚ))
    (W : Fin k → Fin f → ℚ) (H0 : List (Fin k → ℚ))
    (chunkSize maxIter : ℕ) (tol l1 l2 eps : ℚ)
    (hlen : X.length = H0.length) :
    (∀ (n : ℕ) (Q : Fin n → Fin n → ℚ) (l2' eps' : ℚ) (nu h : Fin n → ℚ)
        (a : Fin n), h a = 0 → muRowStep Q l2' eps' nu h a = 0)
    ∧ List.Forall₂
        (fun (p : (Fin f → ℚ) × (Fin k → ℚ)) hout =>
          ∀ a, clampRow p.2 a = 0 → hout a = 0)
        (X.zip H0) (fit_H_online X W H0 chunkSize maxIter tol l1 l2 eps) := by
  constructor
  · intro n Q l2' eps' nu h a hz
    exact muRowStep_zero_entry hz
  · have hgo := fit_forall2_go W l2 eps tol l1 maxIter chunkSize X.length X
      (H0.map clampRow) (by simpa using hlen) le_rfl
    have hzipmap : X.zip (H0.map clampRow)
        = (X.zip H0).map (Prod.map id clampRow) := by
      have hzm := List.zip_map (@id (Fin f → ℚ)) clampRow X H0
      simpa using hzm
    rw [hzipmap, List.forall₂_map_left_iff] at hgo
    unfold fit_H_online chunksOf
    rw [show (H0.map clampRow).length = X.length from by simpa using hlen.symm]
    refine List.Forall₂.imp ?_ hgo
    rintro p hout ⟨j, hj⟩ a hz
    rw [hj]
    exact muRowStep_iterate_zero_entry a j _ (by simpa using hz)

/-- Witness for C10 at a concrete input: one row whose initial entry is
negative, hence clamped to zero, stays zero in the output. -/
theorem c10_zero_is_absorbing_witness :
    ((∀ (n : ℕ) (Q : Fin n → Fin n → ℚ) (l2' eps' : ℚ) (nu h : Fin n → ℚ)
        (a : Fin n), h a = 0 → muRowStep Q l2' eps' nu h a = 0)
    ∧ List.Forall₂
        (fun (p : (Fin 1 → ℚ) × (Fin 1 → ℚ)) hout =>
          ∀ a, clampRow p.2 a = 0 → hout a = 0)
        (([fun _ => (1 : ℚ)] : List (Fin 1 → ℚ)).zip
          ([fun _ => (-3 : ℚ)] : List (Fin 1 → ℚ)))
        (fit_H_online ([fun _ => (1 : ℚ)] : List (Fin 1 → ℚ))
          ((fun _ _ => (1 : ℚ)) : Fin 1 → Fin 1 → ℚ)
          ([fun _ => (-3 : ℚ)] : List (Fin 1 → ℚ)) 1 2 (1 / 20) 0 0 (1 / 10))) :=
  c10_zero_is_absorbing ([fun _ => (1 : ℚ)] : List (Fin 1 → ℚ))
    ((fun _ _ => (1 : ℚ)) : Fin 1 → Fin 1 → ℚ)
    ([fun _ => (-3 : ℚ)] : List (Fin 1 → ℚ)) 1 2 (1 / 20) 0 0 (1 / 10)
    (by with_unfolding_all decide)

/-! ## Monotonicity of the multiplicative update (claim C8)

The plain Frobenius multiplicative update `h ← h * (x Wᵀ) / (h W Wᵀ)` does
not increase `‖x - h·W‖²` (Lee-Seung majorization, proved here over `ℚ`
by the diagonal-dominance symmetrization argument).  The claim as stated —
with the sub-epsilon floor included, and implicitly for every regularization
setting — is false; the counterexample below exhibits concrete error
increases for the floor, for `l2_reg_H > 0` and for `l1_reg_H > 0`. -/

theorem wwt_symm {k f : ℕ} (W : Fin k → Fin f → ℚ) (a b : Fin k) :
    wwt W a b = wwt W b a := by
  unfold wwt dotF
  exact Finset.sum_congr rfl fun _ _ => mul_comm _ _

theorem sum_swap_mul {f k : ℕ} (h : Fin k → ℚ) (W : Fin k → Fin f → ℚ)
    (v : Fin f → ℚ) :
    ∑ j, (∑ b, h b * W b j) * v j = ∑ b, h b * ∑ j, W b j * v j := by
  calc ∑ j, (∑ b, h b * W b j) * v j
      = ∑ j, ∑ b, h b * W b j * v j := by
        refine Finset.sum_congr rfl fun j _ => ?_
        rw [Finset.sum_mul]
    _ = ∑ b, ∑ j, h b * W b j * v j := Finset.sum_comm
    _ = ∑ b, h b * ∑ j, W b j * v j := by
        refine Finset.sum_congr rfl fun b _ => ?_
        rw [Finset.mul_sum]
        exact Finset.sum_congr rfl fun j _ => by ring

theorem sum_sq_vecMul {f k : ℕ} (d : Fin k → ℚ) (W : Fin k → Fin f → ℚ) :
    ∑ j, (∑ a, d a * W a j) ^ 2 = ∑ a, ∑ b, d a * d b * wwt W a b := by
  calc ∑ j, (∑ a, d a * W a j) ^ 2
      = ∑ j, ∑ a, ∑ b, d a * W a j * (d b * W b j) := by
        refine Finset.sum_congr rfl fun j _ => ?_
        rw [sq, Finset.sum_mul_sum]
    _ = ∑ a, ∑ j, ∑ b, d a * W a j * (d b * W b j) := Finset.sum_comm
    _ = ∑ a, ∑ b, ∑ j, d a * W a j * (d b * W b j) := by
        refine Finset.sum_congr rfl fun a _ => ?_
        exact Finset.sum_comm
    _ = ∑ a, ∑ b, d a * d b * wwt W a b := by
        refine Finset.sum_congr rfl fun a _ => Finset.sum_congr rfl fun b _ => ?_
        unfold wwt dotF
        rw [Finset.mul_sum]
        exact Finset.sum_congr rfl fun j _ => by ring

theorem sum_cross {k f : ℕ} (W : Fin k → Fin f → ℚ) (x : Fin f → ℚ)
    (h d : Fin k → ℚ) :
    ∑ j, (x j - ∑ b, h b * W b j) * (∑ a, d a * W a j)
      = ∑ a, d a * ((∑ j, x j * W a j) - ∑ b, h b * wwt W b a) := by
  calc ∑ j, (x j - ∑ b, h b * W b j) * (∑ a, d a * W a j)
      = ∑ j, ∑ a, (x j - ∑ b, h b * W b j) * (d a * W a j) := by
        refine Finset.sum_congr rfl fun j _ => ?_
        rw [Finset.mul_sum]
    _ = ∑ a, ∑ j, (x j - ∑ b, h b * W b j) * (d a * W a j) := Finset.sum_comm
    _ = ∑ a, d a * ∑ j, (x j - ∑ b, h b * W b j) * W a j := by
        refine Finset.sum_congr rfl fun a _ => ?_
        rw [Finset.mul_sum]
        exact Finset.sum_congr rfl fun j _ => by ring
    _ = ∑ a, d a * ((∑ j, x j * W a j) - ∑ b, h b * wwt W b a) := by
        refine Finset.sum_congr rfl fun a _ => ?_
        congr 1
        calc ∑ j, (x j - ∑ b, h b * W b j) * W a j
            = ∑ j, (x j * W a j - (∑ b, h b * W b j) * W a j) :=
              Finset.sum_congr rfl fun j _ => by ring
          _ = (∑ j, x j * W a j) - ∑ j, (∑ b, h b * W b j) * W a j :=
              Finset.sum_sub_distrib
          _ = (∑ j, x j * W a j) - ∑ b, h b * wwt W b a := by
              rw [sum_swap_mul h W (fun j => W a j)]
              simp only [wwt, dotF]

theorem rowErrSq_add {k f : ℕ} (W : Fin k → Fin f → ℚ) (x : Fin f → ℚ)
    (h d : Fin k → ℚ) :
    rowErrSq x W (fun a => h a + d a)
      = rowErrSq x W h
        - 2 * (∑ a, d a * ((∑ j, x j * W a j) - ∑ b, h b * wwt W b a))
        + ∑ a, ∑ b, d a * d b * wwt W a b := by
  unfold rowErrSq
  calc ∑ j, (x j - ∑ a, (h a + d a) * W a j) ^ 2
      = ∑ j, ((x j - ∑ a, h a * W a j) ^ 2
          - 2 * ((x j - ∑ b, h b * W b j) * (∑ a, d a * W a j))
          + (∑ a, d a * W a j) ^ 2) := by
        refine Finset.sum_congr rfl fun j _ => ?_
        have hinner : (∑ a, (h a + d a) * W a j)
            = (∑ a, h a * W a j) + (∑ a, d a * W a j) := by
          rw [← Finset.sum_add_distrib]
          exact Finset.sum_congr rfl fun a _ => by ring
        rw [hinner]
        ring
    _ = (∑ j, (x j - ∑ a, h a * W a j) ^ 2)
          - 2 * (∑ j, (x j - ∑ b, h b * W b j) * (∑ a, d a * W a j))
          + ∑ j, (∑ a, d a * W a j) ^ 2 := by
        rw [Finset.sum_add_distrib, Finset.sum_sub_distrib, ← Finset.mul_sum]
    _ = (∑ j, (x j - ∑ a, h a * W a j) ^ 2)
          - 2 * (∑ a, d a * ((∑ j, x j * W a j) - ∑ b, h b * wwt W b a))
          + ∑ a, ∑ b, d a * d b * wwt W a b := by
        rw [sum_cross W x h d, sum_sq_vecMul d W]

theorem mu_dominance {k f : ℕ} (W : Fin k → Fin f → ℚ) (h cc : Fin k → ℚ)
    (hW : ∀ a j, 0 ≤ W a j) (hh : ∀ a, 0 ≤ h a) :
    ∑ a, ∑ b, (h a * cc a) * (h b * cc b) * wwt W a b
      ≤ ∑ a, (∑ b, h b * wwt W b a) * (h a * cc a ^ 2) := by
  have hQnn : ∀ a b, 0 ≤ wwt W a b := wwt_nonneg hW
  have hkey : 0 ≤ ∑ a, ∑ b, wwt W a b * h a * h b * (cc a - cc b) ^ 2 :=
    Finset.sum_nonneg fun a _ => Finset.sum_nonneg fun b _ =>
      mul_nonneg (mul_nonneg (mul_nonneg (hQnn a b) (hh a)) (hh b)) (sq_nonneg _)
  have hswap : ∑ a, ∑ b, wwt W a b * h a * h b * cc b ^ 2
      = ∑ a, ∑ b, wwt W a b * h a * h b * cc a ^ 2 := by
    rw [Finset.sum_comm]
    refine Finset.sum_congr rfl fun i _ => Finset.sum_congr rfl fun j _ => ?_
    rw [wwt_symm W j i]
    ring
  have hexpand : ∑ a, ∑ b, wwt W a b * h a * h b * (cc a - cc b) ^ 2
      = (∑ a, ∑ b, wwt W a b * h a * h b * cc a ^ 2)
        + (∑ a, ∑ b, wwt W a b * h a * h b * cc b ^ 2)
        - 2 * (∑ a, ∑ b, wwt W a b * h a * h b * (cc a * cc b)) := by
    calc ∑ a, ∑ b, wwt W a b * h a * h b * (cc a - cc b) ^ 2
        = ∑ a, ∑ b, (wwt W a b * h a * h b * cc a ^ 2
            + wwt W a b * h a * h b * cc b ^ 2
            - 2 * (wwt W a b * h a * h b * (cc a * cc b))) :=
          Finset.sum_congr rfl fun a _ => Finset.sum_congr rfl fun b _ => by ring
      _ = (∑ a, ∑ b, wwt W a b * h a * h b * cc a ^ 2)
            + (∑ a, ∑ b, wwt W a b * h a * h b * cc b ^ 2)
            - 2 * (∑ a, ∑ b, wwt W a b * h a * h b * (cc a * cc b)) := by
          simp only [Finset.sum_sub_distrib, Finset.sum_add_distrib, ← Finset.mul_sum]
  have hlhs : ∑ a, ∑ b, (h a * cc a) * (h b * cc b) * wwt W a b
      = ∑ a, ∑ b, wwt W a b * h a * h b * (cc a * cc b) :=
    Finset.sum_congr rfl fun a _ => Finset.sum_congr rfl fun b _ => by ring
  have hrhs : ∑ a, (∑ b, h b * wwt W b a) * (h a * cc a ^ 2)
      = ∑ a, ∑ b, wwt W a b * h a * h b * cc a ^ 2 := by
    refine Finset.sum_congr rfl fun a _ => ?_
    rw [Finset.sum_mul]
    refine Finset.sum_congr rfl fun b _ => ?_
    rw [wwt_symm W b a]
    ring
  rw [hlhs, hrhs]
  linarith [hkey, hexpand, hswap]

theorem rowErr_muRowStep_le {k f : ℕ} (W : Fin k → Fin f → ℚ)
    (x : Fin f → ℚ) (h : Fin k → ℚ) (eps : ℚ) (heps : 0 < eps)
    (hW : ∀ a j, 0 ≤ W a j) (hh : ∀ a, 0 ≤ h a)
    (hde : ∀ a, eps ≤ rowDenom (wwt W) 0 h a) :
    rowErrSq x W (muRowStep (wwt W) 0 eps (rowNumer W 0 x) h)
      ≤ rowErrSq x W h := by
  have hdeeq : ∀ a, rowDenom (wwt W) 0 h a = ∑ b, h b * wwt W b a := by
    intro a
    unfold rowDenom
    rw [if_neg (lt_irrefl (0 : ℚ)), add_zero]
  have hnufun : rowNumer W 0 x = fun a => dotF x (W a) := by
    unfold rowNumer
    exact if_neg (lt_irrefl (0 : ℚ))
  have hdepos : ∀ a, 0 < ∑ b, h b * wwt W b a := by
    intro a
    have h1 := lt_of_lt_of_le heps (hde a)
    rwa [hdeeq a] at h1
  have hstep : muRowStep (wwt W) 0 eps (rowNumer W 0 x) h
      = fun a => h a
          + h a * ((∑ j, x j * W a j) / (∑ b, h b * wwt W b a) - 1) := by
    funext a
    show h a * muRate eps (rowNumer W 0 x a) (rowDenom (wwt W) 0 h a) = _
    unfold muRate
    rw [if_neg (not_lt.mpr (hde a)), hdeeq a, hnufun]
    show h a * (dotF x (W a) / (∑ b, h b * wwt W b a)) = _
    unfold dotF
    ring
  rw [hstep]
  have hadd := rowErrSq_add W x h
    (fun a => h a * ((∑ j, x j * W a j) / (∑ b, h b * wwt W b a) - 1))
  have hgoal : (fun a => h a
        + h a * ((∑ j, x j * W a j) / (∑ b, h b * wwt W b a) - 1))
      = fun a => h a
        + (fun a => h a * ((∑ j, x j * W a j) / (∑ b, h b * wwt W b a) - 1)) a :=
    rfl
  rw [hgoal, hadd]
  have hnude : ∀ a, (∑ j, x j * W a j) - (∑ b, h b * wwt W b a)
      = (∑ b, h b * wwt W b a)
        * ((∑ j, x j * W a j) / (∑ b, h b * wwt W b a) - 1) := by
    intro a
    have hne : (∑ b, h b * wwt W b a) ≠ 0 := ne_of_gt (hdepos a)
    field_simp
  have hterm1 : ∑ a, (fun a => h a
          * ((∑ j, x j * W a j) / (∑ b, h b * wwt W b a) - 1)) a
        * ((∑ j, x j * W a j) - ∑ b, h b * wwt W b a)
      = ∑ a, (∑ b, h b * wwt W b a)
        * (h a * ((∑ j, x j * W a j) / (∑ b, h b * wwt W b a) - 1) ^ 2) := by
    refine Finset.sum_congr rfl fun a _ => ?_
    show h a * ((∑ j, x j * W a j) / (∑ b, h b * wwt W b a) - 1)
        * ((∑ j, x j * W a j) - ∑ b, h b * wwt W b a) = _
    rw [hnude a]
    ring
  have hdom := mu_dominance W h
    (fun a => (∑ j, x j * W a j) / (∑ b, h b * wwt W b a) - 1) hW hh
  have hT : 0 ≤ ∑ a, (∑ b, h b * wwt W b a)
      * (h a * ((∑ j, x j * W a j) / (∑ b, h b * wwt W b a) - 1) ^ 2) :=
    Finset.sum_nonneg fun a _ => mul_nonneg (le_of_lt (hdepos a))
      (mul_nonneg (hh a) (sq_nonneg _))
  linarith [hterm1, hdom, hT]

/-- Claim C8 counterexample: the multiplicative update of the source can
increase the chunk reconstruction error `‖X_chunk - h·W‖²_F`.  Three
concrete one-row instances at the source's epsilon `1e-16`:
(i) `W = [[1e-17]]`, `x = [1]`, `h = [9e16]`: the denominator `9e-18` is
below epsilon, the entry is floored to zero, and the error grows from
`1/100` to `1`; (ii) `W = [[1]]`, `x = [1]`, `h = [1]`, `l2_reg_H = 1`: the
error grows from `0` to `1/4`; (iii) same with `l1_reg_H = 1/2`: the error
grows from `0` to `1/4`. -/
theorem c8_counterexample :
    (chunkErrSq ((fun _ _ => (1 : ℚ) / 10 ^ 17) : Fin 1 → Fin 1 → ℚ)
        ([fun _ => 1] : List (Fin 1 → ℚ))
        ([fun _ => 9 * 10 ^ 16] : List (Fin 1 → ℚ))
      < chunkErrSq ((fun _ _ => (1 : ℚ) / 10 ^ 17) : Fin 1 → Fin 1 → ℚ)
        ([fun _ => 1] : List (Fin 1 → ℚ))
        (stepChunk (wwt ((fun _ _ => (1 : ℚ) / 10 ^ 17) : Fin 1 → Fin 1 → ℚ))
          0 (1 / 10 ^ 16)
          (([fun _ => 1] : List (Fin 1 → ℚ)).map
            (rowNumer ((fun _ _ => (1 : ℚ) / 10 ^ 17) : Fin 1 → Fin 1 → ℚ) 0))
          ([fun _ => 9 * 10 ^ 16] : List (Fin 1 → ℚ))))
    ∧ (chunkErrSq ((fun _ _ => (1 : ℚ)) : Fin 1 → Fin 1 → ℚ)
        ([fun _ => 1] : List (Fin 1 → ℚ)) ([fun _ => 1] : List (Fin 1 → ℚ))
      < chunkErrSq ((fun _ _ => (1 : ℚ)) : Fin 1 → Fin 1 → ℚ)
        ([fun _ => 1] : List (Fin 1 → ℚ))
        (stepChunk (wwt ((fun _ _ => (1 : ℚ)) : Fin 1 → Fin 1 → ℚ)) 1 (1 / 10 ^ 16)
          (([fun _ => 1] : List (Fin 1 → ℚ)).map
            (rowNumer ((fun _ _ => (1 : ℚ)) : Fin 1 → Fin 1 → ℚ) 0))
          ([fun _ => 1] : List (Fin 1 → ℚ))))
    ∧ (chunkErrSq ((fun _ _ => (1 : ℚ)) : Fin 1 → Fin 1 → ℚ)
        ([fun _ => 1] : List (Fin 1 → ℚ)) ([fun _ => 1] : List (Fin 1 → ℚ))
      < chunkErrSq ((fun _ _ => (1 : ℚ)) : Fin 1 → Fin 1 → ℚ)
        ([fun _ => 1] : List (Fin 1 → ℚ))
        (stepChunk (wwt ((fun _ _ => (1 : ℚ)) : Fin 1 → Fin 1 → ℚ)) 0 (1 / 10 ^ 16)
          (([fun _ => 1] : List (Fin 1 → ℚ)).map
            (rowNumer ((fun _ _ => (1 : ℚ)) : Fin 1 → Fin 1 → ℚ) (1 / 2)))
          ([fun _ => 1] : List (Fin 1 → ℚ)))) := by
  refine ⟨?_, ?_, ?_⟩ <;> with_unfolding_all decide

/-- Claim C8 (corrected): on a fixed chunk, one multiplicative-update inner
iteration does not increase the squared Frobenius reconstruction error
`‖X_chunk - h·W‖²_F` (equivalently the Frobenius norm itself), provided the
plain update is taken — `l1_reg_H = 0`, `l2_reg_H = 0` — the chunk state is
entrywise non-negative, and no denominator entry falls below epsilon in this
iteration (no flooring).  The counterexample above shows each of these
provisos is necessary. -/
theorem c8_mu_error_nonincreasing_amended {k f : ℕ} (W : Fin k → Fin f → ℚ)
    (eps : ℚ) (heps : 0 < eps) (hW : ∀ a j, 0 ≤ W a j) :
    ∀ (xs : List (Fin f → ℚ)) (hs : List (Fin k → ℚ)),
      (∀ h ∈ hs, ∀ a, 0 ≤ h a) →
      (∀ h ∈ hs, ∀ a, eps ≤ rowDenom (wwt W) 0 h a) →
      chunkErrSq W xs (stepChunk (wwt W) 0 eps (xs.map (rowNumer W 0)) hs)
        ≤ chunkErrSq W xs hs
  | [], hs, _, _ => by simp [chunkErrSq, stepChunk]
  | _ :: _, [], _, _ => by simp [chunkErrSq, stepChunk]
  | x :: xs, h :: hs, hh, hde => by
    have h1 := rowErr_muRowStep_le W x h eps heps hW
      (hh h (List.mem_cons_self h hs)) (hde h (List.mem_cons_self h hs))
    have h2 := c8_mu_error_nonincreasing_amended W eps heps hW xs hs
      (fun h' hm => hh h' (List.mem_cons_of_mem h hm))
      (fun h' hm => hde h' (List.mem_cons_of_mem h hm))
    simp only [List.map_cons, stepChunk, List.zipWith_cons_cons, chunkErrSq,
      List.zip_cons_cons, List.sum_cons] at h2 ⊢
    exact add_le_add h1 h2

/-- Witness for the amended C8 at a concrete input: `W = [[1]]`, `x = [2]`,
`h = [1]`, `eps = 1/2`; the denominator is `1 ≥ eps` and the error drops
from `1` to `0`. -/
theorem c8_mu_error_nonincreasing_amended_witness :
    (0 : ℚ) < 1 / 2
    ∧ (∀ h ∈ ([fun _ => 1] : List (Fin 1 → ℚ)), ∀ a, 0 ≤ h a)
    ∧ (∀ h ∈ ([fun _ => 1] : List (Fin 1 → ℚ)), ∀ a,
        1 / 2 ≤ rowDenom (wwt ((fun _ _ => (1 : ℚ)) : Fin 1 → Fin 1 → ℚ)) 0 h a)
    ∧ chunkErrSq ((fun _ _ => (1 : ℚ)) : Fin 1 → Fin 1 → ℚ)
        ([fun _ => 2] : List (Fin 1 → ℚ))
        (stepChunk (wwt ((fun _ _ => (1 : ℚ)) : Fin 1 → Fin 1 → ℚ)) 0 (1 / 2)
          (([fun _ => 2] : List (Fin 1 → ℚ)).map
            (rowNumer ((fun _ _ => (1 : ℚ)) : Fin 1 → Fin 1 → ℚ) 0))
          ([fun _ => 1] : List (Fin 1 → ℚ)))
      ≤ chunkErrSq ((fun _ _ => (1 : ℚ)) : Fin 1 → Fin 1 → ℚ)
        ([fun _ => 2] : List (Fin 1 → ℚ)) ([fun _ => 1] : List (Fin 1 → ℚ)) :=
  ⟨by with_unfolding_all decide, by with_unfolding_all decide,
    by with_unfolding_all decide,
    c8_mu_error_nonincreasing_amended ((fun _ _ => (1 : ℚ)) : Fin 1 → Fin 1 → ℚ)
      (1 / 2) (by with_unfolding_all decide) (by with_unfolding_all decide)
      ([fun _ => 2] : List (Fin 1 → ℚ)) ([fun _ => 1] : List (Fin 1 → ℚ))
      (by with_unfolding_all decide) (by with_unfolding_all decide)⟩

/-! ## Batch invariance of the streaming OLS solver (claim C7) -/

theorem chunksOfGo_flatten {α : Type*} {c : ℕ} :
    ∀ (fuel : ℕ) (l : List α), l.length ≤ fuel →
      (chunksOfGo c fuel l).flatten = l
  | 0, l, hle => by
    have hl : l = [] := List.length_eq_zero.mp (Nat.le_zero.mp hle)
    subst hl
    rfl
  | fuel + 1, [], _ => rfl
  | fuel + 1, x :: xs, hle => by
    rw [chunksOfGo, List.flatten_cons]
    have hdrle : ((x :: xs).drop (max c 1)).length ≤ fuel := by
      have h1 : 1 ≤ max c 1 := le_max_right c 1
      have h2 : (x :: xs).length ≤ fuel + 1 := hle
      simp only [List.length_drop, List.length_cons] at h2 ⊢
      generalize max c 1 = mc at h1 ⊢
      omega
    rw [chunksOfGo_flatten fuel _ hdrle, List.take_append_drop]

theorem chunksOf_flatten {α : Type*} (c : ℕ) (l : List α) :
    (chunksOf c l).flatten = l :=
  chunksOfGo_flatten l.length l le_rfl

theorem sum_map_chunksOf {α : Type*} {M : Type*} [AddCommMonoid M]
    (fn : α → M) (c : ℕ) (l : List α) :
    ((chunksOf c l).map (fun ch => (ch.map fn).sum)).sum = (l.map fn).sum := by
  conv_rhs => rw [← chunksOf_flatten c l]
  rw [List.map_flatten, List.sum_flatten, List.map_map]
  rfl

theorem accumXtX_eq {p : ℕ} (X : List (Fin p → ℚ)) (bs : ℕ) :
    accumXtX X bs = (X.map outerXtX).sum := by
  unfold accumXtX batchXtX
  exact sum_map_chunksOf outerXtX bs X

theorem accumXtY_eq {p t : ℕ} (normY : (Fin t → ℚ) → Fin t → ℚ)
    (X : List (Fin p → ℚ)) (Y : List (Fin t → ℚ)) (bs : ℕ) :
    accumXtY normY X Y bs = ((X.zip Y).map (outerXtY normY)).sum := by
  unfold accumXtY batchXtY
  exact sum_map_chunksOf (outerXtY normY) bs (X.zip Y)

/-- Claim C7 (confirmed): for every `X`, `Y` and pair of positive batch
sizes, the streaming OLS solver returns the same result: the accumulated
`XtX` and `XtY` sums over row batches both equal the whole-dataset sums, so
they are independent of the batch size, and the solver output — in
particular the set of target columns fit, which is all of `Fin t` in every
case — is identical.  The global normalization map and the least-squares
solve are fixed functions, applied identically for every batching. -/
theorem c7_ols_batch_size_invariant {p t : ℕ}
    (lstsq : (Fin p → Fin p → ℚ) → (Fin p → Fin t → ℚ) → Fin p → Fin t → ℚ)
    (normY : (Fin t → ℚ) → Fin t → ℚ)
    (X : List (Fin p → ℚ)) (Y : List (Fin t → ℚ)) (b1 b2 : ℕ)
    (_hb1 : 0 < b1) (_hb2 : 0 < b2) :
    efficient_ols_all_cols lstsq normY X Y b1
      = efficient_ols_all_cols lstsq normY X Y b2 := by
  unfold efficient_ols_all_cols
  rw [accumXtX_eq X b1, accumXtX_eq X b2, accumXtY_eq normY X Y b1,
    accumXtY_eq normY X Y b2]

/-- Witness for C7 at a concrete input: two rows, batch sizes 1 and 2. -/
theorem c7_ols_batch_size_invariant_witness :
    (0 < 1) ∧ (0 < 2)
    ∧ efficient_ols_all_cols (fun _ B => B) (fun r => r)
        ([fun _ => 1, fun _ => 2] : List (Fin 1 → ℚ))
        ([fun _ => 3, fun _ => 5] : List (Fin 1 → ℚ)) 1
      = efficient_ols_all_cols (fun _ B => B) (fun r => r)
        ([fun _ => 1, fun _ => 2] : List (Fin 1 → ℚ))
        ([fun _ => 3, fun _ => 5] : List (Fin 1 → ℚ)) 2 :=
  ⟨by decide, by decide,
    c7_ols_batch_size_invariant (fun _ B => B) (fun r => r)
      ([fun _ => 1, fun _ => 2] : List (Fin 1 → ℚ))
      ([fun _ => 3, fun _ => 5] : List (Fin 1 → ℚ)) 1 2
      (by decide) (by decide)⟩

/-! ## Local density characterization (claim C9) -/

theorem sortedAsc_of_zero_entry {l : List ℚ} {i : ℕ} (hi : i < l.length)
    (h0 : l.get ⟨i, hi⟩ = 0) (hnn : ∀ v ∈ l, 0 ≤ v) :
    sortedAsc l = 0 :: sortedAsc (l.eraseIdx i) := by
  have h1 : l.drop i = l.get ⟨i, hi⟩ :: l.drop (i + 1) := by
    rw [List.get_eq_getElem]
    exact List.drop_eq_getElem_cons hi
  have hdecomp : l = l.take i ++ 0 :: l.drop (i + 1) := by
    conv_lhs => rw [← List.take_append_drop i l, h1, h0]
  have hperm1 : l.Perm (0 :: l.eraseIdx i) := by
    rw [List.eraseIdx_eq_take_drop_succ]
    conv_lhs => rw [hdecomp]
    exact List.perm_middle
  have hsorted2 : List.Sorted (· ≤ ·) (0 :: sortedAsc (l.eraseIdx i)) := by
    rw [List.sorted_cons]
    refine ⟨?_, List.sorted_insertionSort _ _⟩
    intro b hb
    have hb1 : b ∈ l.eraseIdx i := (List.perm_insertionSort _ _).mem_iff.mp hb
    exact hnn b (List.mem_of_mem_eraseIdx hb1)
  exact List.eq_of_perm_of_sorted
    ((List.perm_insertionSort _ l).trans
      (hperm1.trans (List.Perm.cons 0 (List.perm_insertionSort _ _).symm)))
    (List.sorted_insertionSort _ l) hsorted2

/-- Claim C9 (confirmed): with `n = nNeighbors local_neighborhood_size
num_rows k` (the floor of `local_neighborhood_size * num_rows / k`), the
LocalDensity of a row as the code computes it — the sum of the `n + 1`
smallest entries of the row's distance list, which include the zero
self-distance, divided by `n` — equals the mean distance of that row to its
`n` nearest other rows, i.e. the same quantity computed from the distance
list with the self-entry removed.  The distance row is any list that is
entrywise non-negative with a zero entry at the row's own index, the
properties the pairwise Euclidean distance matrix of the L2-normalized
spectra provides. -/
theorem c9_local_density_characterization (distRow : List ℚ) (lns : ℚ)
    (kk i : ℕ) (hi : i < distRow.length) (h0 : distRow.get ⟨i, hi⟩ = 0)
    (hnn : ∀ v ∈ distRow, 0 ≤ v) :
    localDensityRow distRow (nNeighbors lns distRow.length kk)
      = meanDistToNearestOthers (distRow.eraseIdx i)
          (nNeighbors lns distRow.length kk) := by
  unfold localDensityRow meanDistToNearestOthers smallestSum
  rw [sortedAsc_of_zero_entry hi h0 hnn, List.take_succ_cons, List.sum_cons,
    zero_add]

/-- Witness for C9 at a concrete input: the distance row `[0, 2, 1]` of a
three-row matrix with `local_neighborhood_size = 1` and `k = 1`, so
`n = 3`. -/
theorem c9_local_density_characterization_witness :
    (0 : ℕ) < ([0, 2, 1] : List ℚ).length
    ∧ localDensityRow ([0, 2, 1] : List ℚ) (nNeighbors 1 ([0, 2, 1] : List ℚ).length 1)
      = meanDistToNearestOthers (([0, 2, 1] : List ℚ).eraseIdx 0)
          (nNeighbors 1 ([0, 2, 1] : List ℚ).length 1) :=
  ⟨by decide,
    c9_local_density_characterization ([0, 2, 1] : List ℚ) 1 1 0 (by decide)
      (by with_unfolding_all decide) (by with_unfolding_all decide)⟩

/-! ## Consensus pipeline claims (C1, C2, C3) -/

theorem forall_zip_fst {α β : Type*} (p : α → Prop) :
    ∀ {l1 : List α} {l2 : List β}, l1.length = l2.length →
      ((∀ q ∈ l1.zip l2, p q.1) ↔ ∀ a ∈ l1, p a)
  | [], [], _ => by simp
  | [], _ :: _, h => by simp at h
  | _ :: _, [], h => by simp at h
  | a :: l1, b :: l2, hlen => by
    rw [List.zip_cons_cons]
    constructor
    · intro hz a' ha'
      rcases List.mem_cons.mp ha' with rfl | ha'
      · exact hz (a', b) (List.mem_cons_self _ _)
      · exact ((forall_zip_fst p (by simpa using hlen)).mp
          (fun q hq => hz q (List.mem_cons_of_mem _ hq))) a' ha'
    · intro hall q hq
      rcases List.mem_cons.mp hq with rfl | hq
      · exact hall a (List.mem_cons_self _ _)
      · exact (forall_zip_fst p (by simpa using hlen)).mpr
          (fun a' ha' => hall a' (List.mem_cons_of_mem _ ha')) q hq

theorem densitySurvivors_eq_nil_iff {g : ℕ} (densities : List ℚ)
    (l2 : List (Fin g → ℚ)) (threshold : ℚ)
    (hlen : densities.length = l2.length) :
    densitySurvivors densities l2 threshold = [] ↔ ∀ d ∈ densities, threshold ≤ d := by
  unfold densitySurvivors
  rw [List.map_eq_nil_iff, List.filter_eq_nil_iff]
  have hiff := forall_zip_fst (fun d => threshold ≤ d) hlen
  constructor
  · intro hall
    refine hiff.mp fun q hq => ?_
    have := hall q hq
    simp only [decide_eq_true_eq] at this
    exact le_of_not_lt this
  · intro hall q hq
    have := hiff.mpr hall q hq
    simp only [decide_eq_true_eq]
    exact not_lt.mpr this

theorem densitySurvivors_all_kept {g : ℕ} (densities : List ℚ)
    (l2 : List (Fin g → ℚ)) (threshold : ℚ)
    (hlen : densities.length = l2.length)
    (hall : ∀ d ∈ densities, d < threshold) :
    densitySurvivors densities l2 threshold = l2 := by
  unfold densitySurvivors
  have hfil : (densities.zip l2).filter (fun p => decide (p.1 < threshold))
      = densities.zip l2 := by
    rw [List.filter_eq_self]
    intro q hq
    have hq1 : q.1 ∈ densities := (List.of_mem_zip (a := q.1) (b := q.2)
      (by simpa using hq)).1
    simp only [decide_eq_true_eq]
    exact hall q.1 hq1
  rw [hfil]
  exact List.map_snd_zip densities l2 (le_of_eq hlen.symm)

/-- Claim C1 counterexample: in stats-only (evaluation) mode the source
skips the density computation and the density filter entirely
(`src/cnmf/cnmf.py:1058-1080` is guarded by
`if not skip_density_and_return_after_stats`).  At a concrete input whose
single cached density is at or above the threshold, the claim-side model —
which runs stages 1-6 including the filter — raises the zero-survivor
configuration error, while the code-side model clusters all rows and
returns the stats record; the two disagree. -/
theorem c1_counterexample :
    (∃ s : KStats, (consensusRun c1Orc true c1In).1 = Except.ok (Sum.inl s))
    ∧ consensusStatsClaim c1Orc c1In = Except.error CnmfError.configurationError
    ∧ (consensusRun c1Orc true c1In).1
        ≠ (consensusStatsClaim c1Orc c1In).map Sum.inl := by
  refine ⟨⟨_, rfl⟩, by with_unfolding_all decide, by with_unfolding_all decide⟩

/-- Claim C1 (corrected): in evaluation (stats-only) mode the consensus
pipeline for a rank `k` normalizes the merged spectra, skips the density
computation and the density filter (stages 2-3) entirely, clusters all
normalized rows, aggregates the per-cluster medians, refits the usage
matrix, and then returns the ConsensusStats record whose silhouette is that
of the clustering of all normalized rows and whose prediction error is the
squared Frobenius norm of (normalized counts minus UsageMatrix times
MedianSpectrum) — skipping stages 8-11 and all artifact persistence, and
never raising the zero-survivor configuration error. -/
theorem c1_stats_mode_amended {g : ℕ} {α : Type} (orc : Oracles g α)
    (ins : ConsensusIn g) :
    (consensusRun orc true ins).2
        = [Stage.normalize, Stage.cluster, Stage.aggregate, Stage.refitUsage,
            Stage.statsExit]
    ∧ ∃ s : KStats, (consensusRun orc true ins).1 = Except.ok (Sum.inl s)
        ∧ s.k = ins.k
        ∧ s.densityThreshold = ins.densityThreshold
        ∧ s.silhouette = orc.silhouette (l2Stage orc ins)
            (orc.cluster ins.k (l2Stage orc ins))
        ∧ s.predictionError
            = predictionErrSq g ins.normCounts
                (renormalizeRows (medianSpectraOf (l2Stage orc ins)
                  (orc.cluster ins.k (l2Stage orc ins))))
                (refitUsageStage g ins.normCounts
                  (renormalizeRows (medianSpectraOf (l2Stage orc ins)
                    (orc.cluster ins.k (l2Stage orc ins))))
                  ins.hinitUsage ins.chunkSize ins.maxIter ins.l1RegH) :=
  ⟨rfl, ⟨_, rfl, rfl, rfl, rfl, rfl⟩⟩

/-- Claim C2 (confirmed): in full consensus mode, the run raises the
configuration error (the source's `RuntimeError` at
`src/cnmf/cnmf.py:1079-1080`) exactly when zero rows survive the density
filter, i.e. when every row's LocalDensity is at or above the threshold;
otherwise it does not raise for this reason. -/
theorem c2_zero_survivors_iff_configuration_error {g : ℕ} {α : Type}
    (orc : Oracles g α) (ins : ConsensusIn g)
    (hlen : ins.localDensities.length = ins.mergedSpectra.length) :
    (consensusRun orc false ins).1 = Except.error CnmfError.configurationError
      ↔ ∀ d ∈ ins.localDensities, ins.densityThreshold ≤ d := by
  have hlen2 : ins.localDensities.length = (l2Stage orc ins).length := by
    unfold l2Stage
    rw [List.length_map]
    exact hlen
  unfold consensusRun
  simp only [Bool.false_eq_true, if_false]
  by_cases hs : (densitySurvivors ins.localDensities (l2Stage orc ins)
      ins.densityThreshold).isEmpty
  · rw [if_pos hs]
    constructor
    · intro _
      exact (densitySurvivors_eq_nil_iff _ _ _ hlen2).mp (List.isEmpty_iff.mp hs)
    · intro _
      rfl
  · rw [if_neg hs]
    constructor
    · intro hcontra
      simp at hcontra
    · intro hall
      exact absurd (List.isEmpty_iff.mpr
        ((densitySurvivors_eq_nil_iff _ _ _ hlen2).mpr hall)) hs

/-- Witness for C2 at a concrete input with densities `[1, 3]` and threshold
`2`: the density `1` is below the threshold, so no error is raised. -/
theorem c2_zero_survivors_iff_configuration_error_witness :
    c2In.localDensities.length = c2In.mergedSpectra.length
    ∧ ((consensusRun c2Orc false c2In).1
          = Except.error CnmfError.configurationError
        ↔ ∀ d ∈ c2In.localDensities, c2In.densityThreshold ≤ d) :=
  ⟨by with_unfolding_all decide,
    c2_zero_survivors_iff_configuration_error c2Orc c2In
      (by with_unfolding_all decide)⟩

/-- Claim C3 counterexample: the density filter keeps a row only when its
LocalDensity is strictly below the threshold, so a threshold equal to the
maximum observed LocalDensity drops the argmax rows.  At densities
`[3/10, 1/2]` and threshold `1/2` (at or above every density), the second
spectra row is dropped and the consensus output differs from the unfiltered
run. -/
theorem c3_counterexample :
    (∀ d ∈ c3In.localDensities, d ≤ c3In.densityThreshold)
    ∧ densitySurvivors c3In.localDensities (l2Stage c3Orc c3In)
        c3In.densityThreshold ≠ l2Stage c3Orc c3In
    ∧ (consensusRun c3Orc false c3In).1 ≠ (consensusUnfiltered c3Orc c3In).1 := by
  refine ⟨by with_unfolding_all decide, by with_unfolding_all decide,
    by with_unfolding_all decide⟩

/-- Claim C3 (corrected): if the density threshold is strictly greater than
every observed LocalDensity value (strictly greater than the maximum), then
no rows are dropped by the density filter and the consensus output equals
the output with no filtering at all.  The counterexample above shows the
original non-strict bound fails: at `threshold = max LocalDensity`, the
rows attaining the maximum are dropped. -/
theorem c3_threshold_above_max_amended {g : ℕ} {α : Type}
    (orc : Oracles g α) (ins : ConsensusIn g)
    (hlen : ins.localDensities.length = ins.mergedSpectra.length)
    (hall : ∀ d ∈ ins.localDensities, d < ins.densityThreshold) :
    (consensusRun orc false ins).1 = (consensusUnfiltered orc ins).1 := by
  have hlen2 : ins.localDensities.length = (l2Stage orc ins).length := by
    unfold l2Stage
    rw [List.length_map]
    exact hlen
  unfold consensusRun consensusUnfiltered
  simp only [Bool.false_eq_true, if_false]
  rw [densitySurvivors_all_kept _ _ _ hlen2 hall]

/-- Witness for the amended C3 at a concrete input with densities
`[3/10, 2/5]` strictly below the threshold `1/2`. -/
theorem c3_threshold_above_max_amended_witness :
    c3In2.localDensities.length = c3In2.mergedSpectra.length
    ∧ (∀ d ∈ c3In2.localDensities, d < c3In2.densityThreshold)
    ∧ (consensusRun c3Orc false c3In2).1 = (consensusUnfiltered c3Orc c3In2).1 :=
  ⟨by with_unfolding_all decide, by with_unfolding_all decide,
    c3_threshold_above_max_amended c3Orc c3In2 (by with_unfolding_all decide)
      (by with_unfolding_all decide)⟩

end CNMFTorch
